import Mathlib

set_option linter.unusedSectionVars false

/-!
Shallow embedding of the gas-station R-tree (`src/code_v2_linear_square.py`,
plus the brute-force baseline `src/linear_search.py`).

The Python code works on floats; the embedding is polymorphic over a linear
ordered field `α` (instantiated at `ℚ` for concrete structural computations
and at `ℝ` when the haversine distance / `math.cos` are involved).  Python's
transcendental functions (`math.cos`, the haversine distance) are passed to
the search as explicit function parameters and instantiated with the real
`Real.cos` / haversine at `α = ℝ`.

Mutation in the Python code is turned into explicit state passing: the
parent back-pointers plus in-place updates of `_handle_overflow` become a
recursive insertion that returns either the single updated node or the two
halves of a split, propagating upward exactly the way the Python code walks
the parent chain.  A parent stores each child entry as the pair
`(MBR, child)` frozen at the time the entry was appended; inserting into a
child without a split mutates only the child object, so the embedding keeps
the stored entry MBR and the parent's cached MBR unchanged in that case,
mirroring the source.
-/

namespace RTreeSpec

open List

/-- `Point` from `code_v2_linear_square.py`: latitude, longitude and an
opaque payload (the Python `dict`), modelled as a natural-number tag. -/
structure Point (α : Type) where
  lat : α
  lon : α
  data : ℕ
  deriving DecidableEq, Repr

/-- `MBR` from `code_v2_linear_square.py`. -/
structure MBR (α : Type) where
  min_lat : α
  max_lat : α
  min_lon : α
  max_lon : α
  deriving DecidableEq, Repr

variable {α : Type} [LinearOrderedField α] {γ : Type}

namespace MBR

/-- `MBR.area`. -/
def area (m : MBR α) : α :=
  (m.max_lat - m.min_lat) * (m.max_lon - m.min_lon)

/-- `MBR.contains_point`: closed-interval test on both axes. -/
def contains_point (m : MBR α) (p : Point α) : Bool :=
  decide (m.min_lat ≤ p.lat) && decide (p.lat ≤ m.max_lat) &&
    decide (m.min_lon ≤ p.lon) && decide (p.lon ≤ m.max_lon)

/-- `MBR.intersects_square`: separating-axis rectangle overlap test against
the query square given by center and half sides. -/
def intersects_square (m : MBR α) (center_lat center_lon half_side_lat half_side_lon : α) :
    Bool :=
  let square_min_lat := center_lat - half_side_lat
  let square_max_lat := center_lat + half_side_lat
  let square_min_lon := center_lon - half_side_lon
  let square_max_lon := center_lon + half_side_lon
  if m.max_lat < square_min_lat then false
  else if square_max_lat < m.min_lat then false
  else if m.max_lon < square_min_lon then false
  else if square_max_lon < m.min_lon then false
  else true

/-- `MBR.expand_to_include` (a point). -/
def expand_to_include (m : MBR α) (p : Point α) : MBR α :=
  ⟨min m.min_lat p.lat, max m.max_lat p.lat, min m.min_lon p.lon, max m.max_lon p.lon⟩

/-- `MBR.expand_to_include_mbr`. -/
def expand_to_include_mbr (m other : MBR α) : MBR α :=
  ⟨min m.min_lat other.min_lat, max m.max_lat other.max_lat,
    min m.min_lon other.min_lon, max m.max_lon other.max_lon⟩

/-- `MBR.from_point`: the degenerate rectangle of a point. -/
def from_point (p : Point α) : MBR α :=
  ⟨p.lat, p.lat, p.lon, p.lon⟩

end MBR

/-- `RTreeNode.update_mbr` computed over an entry list: `none` when the list
is empty, otherwise the fold of `expand_to_include_mbr` over the stored
entry MBRs starting from the first. -/
def unionMbr (es : List (MBR α × γ)) : Option (MBR α) :=
  match es with
  | [] => none
  | e :: rest => some (rest.foldl (fun acc x => acc.expand_to_include_mbr x.1) e.1)

/-- The value Python reads from `node.mbr` inside `_split_node`'s
distribution loop; the `⟨0,0,0,0⟩` default is unreachable there because both
split halves start seeded with one entry. -/
def unionMbrD (es : List (MBR α × γ)) : MBR α :=
  (unionMbr es).getD ⟨0, 0, 0, 0⟩

/-- An R-tree node (`RTreeNode`): a leaf holds `(MBR, Point)` entries, an
internal node holds `(MBR, child)` entries; each carries the cached `mbr`
(`None` exactly when the node was never given entries). -/
inductive RTreeNode (α : Type) where
  | leaf (mbr : Option (MBR α)) (entries : List (MBR α × Point α))
  | internal (mbr : Option (MBR α)) (entries : List (MBR α × RTreeNode α))
  deriving Repr

/-- The cached `node.mbr` field. -/
def RTreeNode.nodeMbr : RTreeNode α → Option (MBR α)
  | .leaf m _ => m
  | .internal m _ => m

/-- `len(node.entries)`. -/
def RTreeNode.entriesLength : RTreeNode α → ℕ
  | .leaf _ es => es.length
  | .internal _ es => es.length

/-- `enlarged_mbr.area() - entry_mbr.area()` from `_choose_leaf`. -/
def enlargement (m : MBR α) (e : MBR α × γ) : α :=
  (e.1.expand_to_include_mbr m).area - e.1.area

/-- One iteration of `RTree._choose_leaf`'s selection loop over
`(index, entry)` pairs, tracking `(best_index, min_enlargement, min_area)`.
Python initialises `min_enlargement`/`min_area` to `float('inf')` so the
first entry always replaces the initial state; the embedding models that
with an `Option` accumulator. -/
def chooseStep (m : MBR α) (acc : Option (ℕ × α × α)) (ie : ℕ × (MBR α × γ)) :
    Option (ℕ × α × α) :=
  match acc with
  | none => some (ie.1, enlargement m ie.2, ie.2.1.area)
  | some st =>
      if enlargement m ie.2 < st.2.1 ∨
          (enlargement m ie.2 = st.2.1 ∧ ie.2.1.area < st.2.2) then
        some (ie.1, enlargement m ie.2, ie.2.1.area)
      else acc

/-- `RTree._choose_leaf`'s selection: the index of the entry with the
smallest area enlargement needed to cover `m`, ties broken by smaller
original area, earlier entries winning remaining ties.  Returns `0` on an
empty list (Python would recurse into `None` and crash; `insertNode` guards
that unreachable case). -/
def chooseIdx (es : List (MBR α × γ)) (m : MBR α) : ℕ :=
  (es.enum.foldl (chooseStep m) none).elim 0 (·.1)

/-- One axis pass of `RTree._linear_pick_seeds`, for the axis whose entry
minima and maxima are read by `lo` and `hi`.  The running state is
`(max_separation, seed1_idx, seed2_idx)` with `none` standing for the
initial `-float('inf')`.  On an axis of positive width whose normalized
separation beats the state, the seeds become the *last* entry index
achieving `max_of_min` and the *last* entry index achieving `min_of_max`,
exactly as Python's overwriting scan does. -/
def axisPass (lo hi : MBR α → α) (es : List (MBR α × γ))
    (st : Option α × ℕ × ℕ) : Option α × ℕ × ℕ :=
  match es with
  | [] => st
  | e :: rest =>
      let min_of_max := (rest.map (fun x => hi x.1)).foldl min (hi e.1)
      let max_of_min := (rest.map (fun x => lo x.1)).foldl max (lo e.1)
      let overall_min := (rest.map (fun x => lo x.1)).foldl min (lo e.1)
      let overall_max := (rest.map (fun x => hi x.1)).foldl max (hi e.1)
      let width := overall_max - overall_min
      if 0 < width then
        let separation := (max_of_min - min_of_max) / width
        let better := match st.1 with
          | none => true
          | some ms => decide (ms < separation)
        if better then
          let s1 := ((e :: rest).enum.foldl
            (fun a ie => if lo ie.2.1 = max_of_min then ie.1 else a) st.2.1)
          let s2 := ((e :: rest).enum.foldl
            (fun a ie => if hi ie.2.1 = min_of_max then ie.1 else a) st.2.2)
          (some separation, s1, s2)
        else st
      else st

/-- `RTree._linear_pick_seeds`: the latitude pass, then the longitude pass,
then the distinctness fallback `seed2 = (seed1 + 1) % len` (only applied
when there is more than one entry). -/
def pickSeeds (es : List (MBR α × γ)) : ℕ × ℕ :=
  let st0 : Option α × ℕ × ℕ := (none, 0, if 1 < es.length then 1 else 0)
  let st1 := axisPass (·.min_lat) (·.max_lat) es st0
  let st2 := axisPass (·.min_lon) (·.max_lon) es st1
  if st2.2.1 = st2.2.2 ∧ 1 < es.length then
    (st2.2.1, (st2.2.1 + 1) % es.length)
  else (st2.2.1, st2.2.2)

/-- The distribution loop of `RTree._split_node`: each remaining entry goes
to the half needing the smaller area enlargement; ties go to the half with
the smaller current area, then to the half with fewer entries (the first
half when also tied).  The two halves start from the seed entries, so the
`unionMbrD` defaults are never read. -/
def distribute : List (MBR α × γ) → List (MBR α × γ) → List (MBR α × γ) →
    List (MBR α × γ) × List (MBR α × γ)
  | [], n1, n2 => (n1, n2)
  | e :: rest, n1, n2 =>
      let m1 := unionMbrD n1
      let m2 := unionMbrD n2
      let enl1 := (m1.expand_to_include_mbr e.1).area - m1.area
      let enl2 := (m2.expand_to_include_mbr e.1).area - m2.area
      if enl1 < enl2 then distribute rest (n1 ++ [e]) n2
      else if enl2 < enl1 then distribute rest n1 (n2 ++ [e])
      else if m1.area < m2.area then distribute rest (n1 ++ [e]) n2
      else if m2.area < m1.area then distribute rest n1 (n2 ++ [e])
      else if n1.length ≤ n2.length then distribute rest (n1 ++ [e]) n2
      else distribute rest n1 (n2 ++ [e])

/-- `RTree._split_node` on the entry list of the overflowing node: pick the
two seeds, remove them from the list (Python's `enumerate` filter), and
distribute the remainder.  The fallback branch is unreachable because the
seed indices are always in range. -/
def splitEntries (es : List (MBR α × γ)) : List (MBR α × γ) × List (MBR α × γ) :=
  let s := pickSeeds es
  match es[s.1]?, es[s.2]? with
  | some e1, some e2 =>
      let remaining := (es.enum.filter (fun ie => ie.1 ≠ s.1 ∧ ie.1 ≠ s.2)).map (·.2)
      distribute remaining [e1] [e2]
  | _, _ => (es, [])

/-- Result of inserting into a subtree: either the single updated node, or
the two `(MBR, node)` entries produced by a split, to be spliced into the
parent (this is how the embedding renders `_handle_overflow`'s walk up the
Python parent pointers). -/
inductive InsResult (α : Type) where
  | one : RTreeNode α → InsResult α
  | two : MBR α × RTreeNode α → MBR α × RTreeNode α → InsResult α

/-- Package one half of a split leaf as the `(node.mbr, node)` entry Python
appends to the parent; `update_mbr` has just run, so the cached MBR is the
union of the half's entries. -/
def leafHalf (es : List (MBR α × Point α)) : MBR α × RTreeNode α :=
  (unionMbrD es, .leaf (unionMbr es) es)

/-- Package one half of a split internal node, as in `leafHalf`. -/
def internalHalf (es : List (MBR α × RTreeNode α)) : MBR α × RTreeNode α :=
  (unionMbrD es, .internal (unionMbr es) es)

mutual

/-- `RTree.insert` below the root: descend along `_choose_leaf`, append at
the leaf, recompute the leaf's cached MBR, and split overflowing nodes on
the way back up (`len > max_entries`, the strict test).  When the recursive
insertion does not split, the parent keeps both its cached MBR and the
stored entry MBR of the mutated child unchanged — Python never touches them
in that case.  When it splits, the child's entry is removed and the two
halves are appended, and the parent's cached MBR is recomputed. -/
def insertNode (M : ℕ) (pm : MBR α) (p : Point α) : RTreeNode α → InsResult α
  | .leaf _ es =>
      let es' := es ++ [(pm, p)]
      if M < es'.length then
        let halves := splitEntries es'
        .two (leafHalf halves.1) (leafHalf halves.2)
      else .one (.leaf (unionMbr es') es')
  | .internal nm es =>
      match insertIntoChild M pm p es (chooseIdx es pm) with
      | none => .one (.internal nm es)
      | some (cm, .one c') =>
          .one (.internal nm (es.set (chooseIdx es pm) (cm, c')))
      | some (_, .two e1 e2) =>
          let es' := es.eraseIdx (chooseIdx es pm) ++ [e1, e2]
          if M < es'.length then
            let halves := splitEntries es'
            .two (internalHalf halves.1) (internalHalf halves.2)
          else .one (.internal (unionMbr es') es')
  termination_by structural n => n

/-- Recursive descent into the `i`-th child entry: returns the stored entry
MBR of that child together with the result of the recursive insertion, or
`none` when `i` is out of range (unreachable from `insertNode`, whose index
comes from `chooseIdx` on the same list; Python would have crashed on the
corresponding `best_entry = None`). -/
def insertIntoChild (M : ℕ) (pm : MBR α) (p : Point α) :
    List (MBR α × RTreeNode α) → ℕ → Option (MBR α × InsResult α)
  | [], _ => none
  | e :: _, 0 => some (e.1, insertNode M pm p e.2)
  | _ :: rest, i + 1 => insertIntoChild M pm p rest i
  termination_by structural l => l

end

/-- `RTree.insert` at the root: if the root splits, `_handle_overflow`
builds a brand-new internal root over the two halves and recomputes its
cached MBR from the two stored entry MBRs. -/
def insertRoot (M : ℕ) (root : RTreeNode α) (p : Point α) : RTreeNode α :=
  match insertNode M (MBR.from_point p) p root with
  | .one n => n
  | .two e1 e2 => .internal (unionMbr [e1, e2]) [e1, e2]

/-- The `RTree` object: `max_entries`, the derived `min_entries`, and the
root node. -/
structure RTree (α : Type) where
  max_entries : ℕ
  min_entries : ℕ
  root : RTreeNode α

/-- `RTree.__init__`: `min_entries = max(2, max_entries // 2)` and a fresh
empty leaf root.  No validation of `max_entries` is performed. -/
def RTree.init (M : ℕ) : RTree α :=
  ⟨M, max 2 (M / 2), .leaf none []⟩

/-- `RTree.insert` on the tree object. -/
def RTree.insertPoint (t : RTree α) (p : Point α) : RTree α :=
  { t with root := insertRoot t.max_entries t.root p }

/-- A fresh tree into which a list of points is inserted one at a time. -/
def buildTree (M : ℕ) (ps : List (Point α)) : RTree α :=
  ps.foldl RTree.insertPoint (RTree.init M)

mutual

/-- `RTree._search_square_recursive`: depth-first collection of the
`(point, distance)` candidate pairs, pruning nodes whose cached MBR misses
the query square (nodes with `mbr = None` are skipped like Python's
`if not node.mbr: return`).  At a leaf, points inside the query square are
paired with their `dist` to the query center, in entry order.  `dist` is the
haversine distance at `α = ℝ`; it is a parameter because the embedding of
the tree is field-polymorphic. -/
def searchRec (dist : Point α → Point α → α) (center : Point α)
    (half_side_lat half_side_lon : α) : RTreeNode α → List (Point α × α)
  | .leaf om es =>
      match om with
      | none => []
      | some m =>
          if m.intersects_square center.lat center.lon half_side_lat half_side_lon then
            (es.filter (fun e =>
                decide (center.lat - half_side_lat ≤ e.2.lat) &&
                decide (e.2.lat ≤ center.lat + half_side_lat) &&
                decide (center.lon - half_side_lon ≤ e.2.lon) &&
                decide (e.2.lon ≤ center.lon + half_side_lon))).map
              (fun e => (e.2, dist center e.2))
          else []
  | .internal om es =>
      match om with
      | none => []
      | some m =>
          if m.intersects_square center.lat center.lon half_side_lat half_side_lon then
            searchEntries dist center half_side_lat half_side_lon es
          else []
  termination_by structural n => n

/-- The loop over an internal node's children in
`_search_square_recursive`, collecting results in child order. -/
def searchEntries (dist : Point α → Point α → α) (center : Point α)
    (half_side_lat half_side_lon : α) :
    List (MBR α × RTreeNode α) → List (Point α × α)
  | [] => []
  | e :: rest =>
      searchRec dist center half_side_lat half_side_lon e.2 ++
        searchEntries dist center half_side_lat half_side_lon rest
  termination_by structural l => l

end

/-- `RTree.search_square`: convert the radius to the square's half sides
(`cosRad` models Python's `math.cos(math.radians(center.lat))`), collect the
candidates, keep those with distance at most `radius_km`, and sort the kept
pairs by distance with a stable sort (Python's `list.sort`). -/
def search_square (dist : Point α → Point α → α) (cosRad : α → α)
    (root : RTreeNode α) (center : Point α) (radius_km : α) : List (Point α × α) :=
  let half_side_lat := radius_km / 111
  let half_side_lon := radius_km / (111 * cosRad center.lat)
  let candidates := searchRec dist center half_side_lat half_side_lon root
  let results := candidates.filter (fun pr => decide (pr.2 ≤ radius_km))
  results.mergeSort (fun a b => decide (a.2 ≤ b.2))

mutual

/-- All points stored in the leaf entries of a subtree, in depth-first entry
order. -/
def allPoints : RTreeNode α → List (Point α)
  | .leaf _ es => es.map (·.2)
  | .internal _ es => allPointsEntries es
  termination_by structural n => n

def allPointsEntries : List (MBR α × RTreeNode α) → List (Point α)
  | [] => []
  | e :: rest => allPoints e.2 ++ allPointsEntries rest
  termination_by structural l => l

end

mutual

/-- Every node of a subtree (the subtree root included). -/
def allNodes : RTreeNode α → List (RTreeNode α)
  | .leaf m es => [.leaf m es]
  | .internal m es => .internal m es :: allNodesEntries es
  termination_by structural n => n

def allNodesEntries : List (MBR α × RTreeNode α) → List (RTreeNode α)
  | [] => []
  | e :: rest => allNodes e.2 ++ allNodesEntries rest
  termination_by structural l => l

end

mutual

/-- The depth (root at depth 0) of every leaf of a subtree. -/
def leafDepths : RTreeNode α → List ℕ
  | .leaf _ _ => [0]
  | .internal _ es => (leafDepthsEntries es).map (· + 1)
  termination_by structural n => n

def leafDepthsEntries : List (MBR α × RTreeNode α) → List ℕ
  | [] => []
  | e :: rest => leafDepths e.2 ++ leafDepthsEntries rest
  termination_by structural l => l

end

/-- The tallies of `RTree.count_nodes`. -/
structure NodeCounts where
  leaf_count : ℕ
  internal_count : ℕ
  total_entries : ℕ
  deriving DecidableEq, Repr

instance : Add NodeCounts :=
  ⟨fun a b => ⟨a.leaf_count + b.leaf_count, a.internal_count + b.internal_count,
    a.total_entries + b.total_entries⟩⟩

mutual

/-- `RTree.count_nodes` / `_count_recursive`: a leaf contributes one leaf
node and its entry count; an internal node contributes one internal node
plus its children's tallies. -/
def countNodes : RTreeNode α → NodeCounts
  | .leaf _ es => ⟨1, 0, es.length⟩
  | .internal _ es => ⟨0, 1, 0⟩ + countNodesEntries es
  termination_by structural n => n

def countNodesEntries : List (MBR α × RTreeNode α) → NodeCounts
  | [] => ⟨0, 0, 0⟩
  | e :: rest => countNodes e.2 + countNodesEntries rest
  termination_by structural l => l

end

/-- `math.radians`: degrees to radians. -/
noncomputable def radians (x : ℝ) : ℝ := x * (Real.pi / 180)

/-- `Point.distance_to`: the haversine great-circle distance with Earth
radius `R = 6371` km, exactly as written in `code_v2_linear_square.py`
(`c = 2 * asin(sqrt(a))`). -/
noncomputable def distance_to (self other : Point ℝ) : ℝ :=
  let lat1 := radians self.lat
  let lon1 := radians self.lon
  let lat2 := radians other.lat
  let lon2 := radians other.lon
  let dlat := lat2 - lat1
  let dlon := lon2 - lon1
  let a := Real.sin (dlat / 2) ^ 2 +
    Real.cos lat1 * Real.cos lat2 * Real.sin (dlon / 2) ^ 2
  let c := 2 * Real.arcsin (Real.sqrt a)
  6371 * c

/-- `math.cos(math.radians(x))`, the factor in `search_square`'s
longitude half side. -/
noncomputable def cosRad (x : ℝ) : ℝ := Real.cos (radians x)

/-- `RTree.search_square` at `α = ℝ` with the real haversine distance and
cosine. -/
noncomputable def search_squareR (root : RTreeNode ℝ) (center : Point ℝ)
    (radius_km : ℝ) : List (Point ℝ × ℝ) :=
  search_square distance_to cosRad root center radius_km

/-- The brute-force baseline of `linear_search.py`: compute the haversine
distance from the query to every point, keep those within `r`, and sort the
kept pairs ascending by distance with a stable sort.  (`distance_km` there
is the same haversine formula written with `atan2`; the spec notes the two
forms are numerically equivalent for `a ∈ [0,1]`, and the embedding uses the
`asin` form for both.) -/
noncomputable def linearScan (pts : List (Point ℝ)) (center : Point ℝ)
    (r : ℝ) : List (Point ℝ × ℝ) :=
  ((pts.map (fun p => (p, distance_to center p))).filter
    (fun pr => decide (pr.2 ≤ r))).mergeSort (fun a b => decide (a.2 ≤ b.2))

/-! ### Concrete insertion sequences used by the counterexamples -/

/-- Five collinear points; with `max_entries = 3` the fourth insertion
splits the root and the fifth lands in a leaf without splitting, so no
ancestor MBR is widened to cover `(0, 100)`. -/
noncomputable def stalePts : List (Point ℝ) :=
  [⟨0, 0, 0⟩, ⟨0, 1, 1⟩, ⟨0, 2, 2⟩, ⟨0, 3, 3⟩, ⟨0, 100, 4⟩]

/-- The last of `stalePts`, far away from the other four. -/
noncomputable def farPt : Point ℝ := ⟨0, 100, 4⟩

/-- The simp set that evaluates a concrete `buildTree` computation. -/
lemma staleTree_eq :
    (buildTree 3 stalePts).root =
      .internal (some ⟨0, 0, 0, 3⟩)
        [(⟨0, 0, 1, 3⟩, .leaf (some ⟨0, 0, 1, 100⟩)
            [(⟨0, 0, 3, 3⟩, ⟨0, 3, 3⟩), (⟨0, 0, 1, 1⟩, ⟨0, 1, 1⟩),
             (⟨0, 0, 100, 100⟩, ⟨0, 100, 4⟩)]),
         (⟨0, 0, 0, 2⟩, .leaf (some ⟨0, 0, 0, 2⟩)
            [(⟨0, 0, 0, 0⟩, ⟨0, 0, 0⟩), (⟨0, 0, 2, 2⟩, ⟨0, 2, 2⟩)])] := by
  norm_num [buildTree, RTree.insertPoint, RTree.init, insertRoot, insertNode,
    insertIntoChild, chooseIdx, chooseStep, enlargement, axisPass, pickSeeds, distribute, splitEntries,
    unionMbr, unionMbrD, leafHalf, internalHalf, MBR.expand_to_include_mbr,
    MBR.area, MBR.from_point, List.enum, List.enumFrom, min_def, max_def,
    stalePts, List.foldl, List.set, List.eraseIdx, List.filter]

/-- Five points over `ℚ` for which the linear split sends a single seed to
one half and everything else to the other, leaving a one-entry node. -/
def lonePts : List (Point ℚ) :=
  [⟨0, 0, 0⟩, ⟨0, 1, 1⟩, ⟨1, 0, 2⟩, ⟨1, 1, 3⟩, ⟨10, 10, 4⟩]

lemma loneTree_eq :
    (buildTree 4 lonePts).root =
      .internal (some ⟨0, 10, 0, 10⟩)
        [(⟨10, 10, 10, 10⟩, .leaf (some ⟨10, 10, 10, 10⟩)
            [(⟨10, 10, 10, 10⟩, ⟨10, 10, 4⟩)]),
         (⟨0, 1, 0, 1⟩, .leaf (some ⟨0, 1, 0, 1⟩)
            [(⟨0, 0, 1, 1⟩, ⟨0, 1, 1⟩), (⟨0, 0, 0, 0⟩, ⟨0, 0, 0⟩),
             (⟨1, 1, 0, 0⟩, ⟨1, 0, 2⟩), (⟨1, 1, 1, 1⟩, ⟨1, 1, 3⟩)])] := by
  norm_num [buildTree, RTree.insertPoint, RTree.init, insertRoot, insertNode,
    insertIntoChild, chooseIdx, chooseStep, enlargement, axisPass, pickSeeds, distribute, splitEntries,
    unionMbr, unionMbrD, leafHalf, internalHalf, MBR.expand_to_include_mbr,
    MBR.area, MBR.from_point, List.enum, List.enumFrom, min_def, max_def,
    lonePts, List.foldl, List.set, List.eraseIdx, List.filter]

/-- The haversine distance between two points with the same coordinates is
`0`. -/
lemma distance_to_same_coords (p q : Point ℝ) (hlat : p.lat = q.lat)
    (hlon : p.lon = q.lon) : distance_to p q = 0 := by
  simp [distance_to, hlat, hlon, radians]

/-- C2 (code_bug evidence): after inserting `(0,0), (0,1), (0,2), (0,3)`
and then `(0,100)` with `max_entries = 3`, the fifth insertion does not
split, so no ancestor MBR is recomputed: the root's cached MBR is still
`lat ∈ [0,0], lon ∈ [0,3]`, which fails the closed-interval containment
test for the inserted point `(0,100)` even though that point is stored in
the root's subtree.  This refutes the claim that every reachable node's
cached MBR contains every point of its subtree. -/
theorem root_mbr_misses_subtree_point :
    (buildTree 3 stalePts).root.nodeMbr = some ⟨0, 0, 0, 3⟩ ∧
    farPt ∈ allPoints (buildTree 3 stalePts).root ∧
    MBR.contains_point (⟨0, 0, 0, 3⟩ : MBR ℝ) farPt = false := by
  refine ⟨by rw [staleTree_eq]; rfl, ?_, ?_⟩
  · rw [staleTree_eq]
    simp [allPoints, allPointsEntries, farPt]
  · norm_num [MBR.contains_point, farPt]

/-- C1 (code_bug evidence): on the `stalePts` insertion sequence with
`max_entries = 3`, querying at center `(0,100)` with radius `1` km returns
the empty list — the search prunes at the root because the root's stale
cached MBR (`lon ∈ [0,3]`) misses the query square — while the brute-force
linear scan of `linear_search.py` returns a non-empty list (it contains the
inserted point `(0,100)`, whose haversine distance to the center is `0`).
So `search_square` does not agree with the brute-force baseline. -/
theorem search_square_misses_point_within_radius :
    search_squareR (buildTree 3 stalePts).root ⟨0, 100, 9⟩ 1 = [] ∧
    farPt ∈ stalePts ∧
    distance_to ⟨0, 100, 9⟩ farPt = 0 ∧
    linearScan stalePts ⟨0, 100, 9⟩ 1 ≠ [] := by
  have hdist : distance_to ⟨0, 100, 9⟩ farPt = 0 :=
    distance_to_same_coords _ _ rfl rfl
  refine ⟨?_, by simp [stalePts, farPt], hdist, ?_⟩
  · rw [search_squareR, staleTree_eq]
    norm_num [search_square, searchRec, MBR.intersects_square, cosRad, radians]
  · have hmem : (farPt, (0 : ℝ)) ∈ linearScan stalePts ⟨0, 100, 9⟩ 1 := by
      rw [linearScan, (List.mergeSort_perm _ _).mem_iff, List.mem_filter]
      constructor
      · refine List.mem_map.2 ⟨farPt, by simp [stalePts, farPt], ?_⟩
        rw [hdist]
      · norm_num
    exact List.ne_nil_of_mem hmem

/-- C10: `min_entries` is dead state.  Insertion reads only `max_entries`
and the root (trees differing only in `min_entries` produce identical
roots, and `min_entries` is only ever written at construction), search takes
the root alone, and no minimum-fill invariant holds: inserting `lonePts`
with `max_entries = 4` (so `min_entries = max 2 (4 / 2) = 2`) leaves a
split-produced leaf holding exactly one entry. -/
theorem min_entries_never_read_and_no_min_fill :
    (∀ (M me me' : ℕ) (root : RTreeNode ℚ) (p : Point ℚ),
      (RTree.insertPoint ⟨M, me, root⟩ p).root =
        (RTree.insertPoint ⟨M, me', root⟩ p).root ∧
      (RTree.insertPoint ⟨M, me, root⟩ p).min_entries = me) ∧
    (buildTree 4 lonePts).min_entries = 2 ∧
    ∃ n ∈ allNodes (buildTree 4 lonePts).root, n.entriesLength = 1 := by
  refine ⟨fun M me me' root p => ⟨rfl, rfl⟩, ?_, ?_⟩
  · have : (buildTree 4 lonePts).min_entries = (RTree.init (α := ℚ) 4).min_entries := by
      rw [buildTree]
      generalize RTree.init (α := ℚ) 4 = t0
      induction lonePts generalizing t0 with
      | nil => rfl
      | cons p ps ih => exact (ih (t0.insertPoint p)).trans rfl
    rw [this]
    rfl
  · refine ⟨.leaf (some ⟨10, 10, 10, 10⟩) [(⟨10, 10, 10, 10⟩, ⟨10, 10, 4⟩)], ?_, rfl⟩
    rw [loneTree_eq]
    simp [allNodes, allNodesEntries]

mutual

/-- Structural induction principle for the nested node type. -/
def RTreeNode.inductionOn {β : Type} {motive : RTreeNode β → Prop}
    (hleaf : ∀ m es, motive (.leaf m es))
    (hint : ∀ m es, (∀ e ∈ es, motive e.2) → motive (.internal m es)) :
    (t : RTreeNode β) → motive t
  | .leaf m es => hleaf m es
  | .internal m es => hint m es (RTreeNode.entriesInductionOn hleaf hint es)
  termination_by structural t => t

def RTreeNode.entriesInductionOn {β : Type} {motive : RTreeNode β → Prop}
    (hleaf : ∀ m es, motive (.leaf m es))
    (hint : ∀ m es, (∀ e ∈ es, motive e.2) → motive (.internal m es)) :
    (es : List (MBR β × RTreeNode β)) → ∀ e ∈ es, motive e.2
  | [], e, h => absurd h (List.not_mem_nil e)
  | x :: rest, e, h =>
      Or.elim (List.mem_cons.1 h)
        (fun heq => heq ▸ RTreeNode.inductionOn hleaf hint x.2)
        (fun hmem => RTreeNode.entriesInductionOn hleaf hint rest e hmem)
  termination_by structural es => es

end

/-- If every child search is empty so is the loop over the children. -/
lemma searchEntries_eq_nil (dist : Point α → Point α → α) (c : Point α)
    (hl hlon : α) (es : List (MBR α × RTreeNode α))
    (h : ∀ e ∈ es, searchRec dist c hl hlon e.2 = []) :
    searchEntries dist c hl hlon es = [] := by
  induction es with
  | nil => rfl
  | cons e rest ih =>
      rw [searchEntries, h e (List.mem_cons_self e rest),
        ih (fun x hx => h x (List.mem_cons_of_mem e hx))]
      rfl

/-- With a negative latitude half side the leaf containment test
`square_min_lat ≤ p.lat ≤ square_max_lat` is unsatisfiable, so the
recursive search collects nothing anywhere. -/
lemma searchRec_eq_nil_of_neg (dist : Point α → Point α → α) (c : Point α)
    (hl hlon : α) (hneg : hl < 0) (t : RTreeNode α) :
    searchRec dist c hl hlon t = [] := by
  induction t using RTreeNode.inductionOn with
  | hleaf m es =>
      cases m with
      | none => rfl
      | some m =>
          rw [searchRec]
          have hfil : es.filter (fun e =>
              decide (c.lat - hl ≤ e.2.lat) && decide (e.2.lat ≤ c.lat + hl) &&
              decide (c.lon - hlon ≤ e.2.lon) &&
              decide (e.2.lon ≤ c.lon + hlon)) = [] := by
            refine List.filter_eq_nil_iff.2 (fun e _ => ?_)
            simp only [Bool.and_eq_true, decide_eq_true_eq, not_and]
            rintro ⟨⟨h1, h2⟩, -⟩ -
            linarith
          rw [hfil]
          simp
  | hint m es ih =>
      cases m with
      | none => rfl
      | some m =>
          rw [searchRec, searchEntries_eq_nil dist c hl hlon es ih]
          simp

/-- `search_square` with a negative radius silently returns the empty
list, for any tree and any distance and cosine functions. -/
lemma search_square_eq_nil_of_neg (dist : Point α → Point α → α)
    (cosR : α → α) (t : RTreeNode α) (c : Point α) (r : α) (h : r < 0) :
    search_square dist cosR t c r = [] := by
  rw [search_square]
  have : r / 111 < 0 := div_neg_of_neg_of_pos h (by norm_num)
  rw [searchRec_eq_nil_of_neg dist c _ _ this t]
  simp

/-- C8 counterexample to the claimed loud rejection: a search call with
`radiusKm = -1 ≤ 0` executes and returns a normal value (the empty list)
instead of failing, and constructing a tree with the non-positive
`max_entries = 0` also succeeds, storing the value unvalidated (with
`min_entries = max 2 (0 / 2) = 2`).  The source has no validation or raise
on either path. -/
theorem boundary_violations_execute_silently :
    search_squareR (RTree.init 5).root ⟨0, 0, 0⟩ (-1) = [] ∧
    (RTree.init (α := ℝ) 0).max_entries = 0 ∧
    (RTree.init (α := ℝ) 0).min_entries = 2 := by
  refine ⟨?_, rfl, rfl⟩
  exact search_square_eq_nil_of_neg _ _ _ _ _ (by norm_num)

/-- C8 (amended): the code performs no boundary validation.  `RTree`
construction accepts every `max_entries` value, storing it unchanged with
`min_entries = max 2 (max_entries // 2)`, and `search_square` with a
negative radius executes silently and returns the empty list (radius `0` is
likewise executed, not rejected); rejecting `radiusKm ≤ 0` is left to the
caller. -/
theorem no_boundary_validation :
    (∀ M : ℕ, (RTree.init (α := ℝ) M).max_entries = M ∧
      (RTree.init (α := ℝ) M).min_entries = max 2 (M / 2)) ∧
    ∀ (t : RTreeNode ℝ) (c : Point ℝ) (r : ℝ), r < 0 →
      search_squareR t c r = [] :=
  ⟨fun _ => ⟨rfl, rfl⟩, fun t c r h => search_square_eq_nil_of_neg _ _ t c r h⟩

/-- Witness for `no_boundary_validation` at a concrete tree and radius. -/
theorem no_boundary_validation_witness :
    (-1 : ℝ) < 0 ∧ search_squareR (RTree.init 3).root ⟨1, 2, 0⟩ (-1) = [] :=
  ⟨by norm_num, no_boundary_validation.2 (RTree.init 3).root ⟨1, 2, 0⟩ (-1) (by norm_num)⟩

/-! ### Split bookkeeping: the two halves hold exactly the original entries -/

/-- The distribution loop only moves entries: together the two halves hold
the seeds and every remaining entry, each exactly once. -/
lemma distribute_perm (rem n1 n2 : List (MBR α × γ)) :
    (distribute rem n1 n2).1 ++ (distribute rem n1 n2).2 ~ n1 ++ n2 ++ rem := by
  induction rem generalizing n1 n2 with
  | nil => simp [distribute]
  | cons e rest ih =>
      have hleft : ∀ m1 m2 : List (MBR α × γ),
          (distribute rest (m1 ++ [e]) m2).1 ++ (distribute rest (m1 ++ [e]) m2).2 ~
            m1 ++ m2 ++ e :: rest := by
        intro m1 m2
        refine (ih (m1 ++ [e]) m2).trans ?_
        have h1 : (m1 ++ [e]) ++ m2 ++ rest ~ e :: (m1 ++ (m2 ++ rest)) := by
          have hpm : m1 ++ e :: (m2 ++ rest) ~ e :: (m1 ++ (m2 ++ rest)) :=
            List.perm_middle
          simp only [List.append_assoc, List.singleton_append] at hpm ⊢
          exact hpm
        have h2 : m1 ++ m2 ++ e :: rest ~ e :: (m1 ++ (m2 ++ rest)) := by
          have hpm : (m1 ++ m2) ++ e :: rest ~ e :: ((m1 ++ m2) ++ rest) :=
            List.perm_middle
          simpa using hpm
        exact h1.trans h2.symm
      have hright : ∀ m1 m2 : List (MBR α × γ),
          (distribute rest m1 (m2 ++ [e])).1 ++ (distribute rest m1 (m2 ++ [e])).2 ~
            m1 ++ m2 ++ e :: rest := by
        intro m1 m2
        refine (ih m1 (m2 ++ [e])).trans ?_
        simp [List.append_assoc]
      rw [distribute]
      split
      · exact hleft n1 n2
      · split
        · exact hright n1 n2
        · split
          · exact hleft n1 n2
          · split
            · exact hright n1 n2
            · split
              · exact hleft n1 n2
              · exact hright n1 n2

/-- Distribution never removes from the first half. -/
lemma distribute_le_length_left (rem n1 n2 : List (MBR α × γ)) :
    n1.length ≤ (distribute rem n1 n2).1.length := by
  induction rem generalizing n1 n2 with
  | nil => simp [distribute]
  | cons e rest ih =>
      rw [distribute]
      have hl : n1.length ≤ (n1 ++ [e]).length := by simp
      split
      · exact hl.trans (ih (n1 ++ [e]) n2)
      · split
        · exact ih n1 (n2 ++ [e])
        · split
          · exact hl.trans (ih (n1 ++ [e]) n2)
          · split
            · exact ih n1 (n2 ++ [e])
            · split
              · exact hl.trans (ih (n1 ++ [e]) n2)
              · exact ih n1 (n2 ++ [e])

/-- Distribution never removes from the second half. -/
lemma distribute_le_length_right (rem n1 n2 : List (MBR α × γ)) :
    n2.length ≤ (distribute rem n1 n2).2.length := by
  induction rem generalizing n1 n2 with
  | nil => simp [distribute]
  | cons e rest ih =>
      rw [distribute]
      have hr : n2.length ≤ (n2 ++ [e]).length := by simp
      split
      · exact ih (n1 ++ [e]) n2
      · split
        · exact hr.trans (ih n1 (n2 ++ [e]))
        · split
          · exact ih (n1 ++ [e]) n2
          · split
            · exact hr.trans (ih n1 (n2 ++ [e]))
            · split
              · exact ih (n1 ++ [e]) n2
              · exact hr.trans (ih n1 (n2 ++ [e]))

/-- Removing two absent indices keeps every element. -/
lemma enumFrom_filter_two_all_kept {β : Type} (l : List β) (n s1 s2 : ℕ)
    (h1 : s1 < n) (h2 : s2 < n) :
    ((List.enumFrom n l).filter
      (fun ie => decide (ie.1 ≠ s1 ∧ ie.1 ≠ s2))).map Prod.snd = l := by
  induction l generalizing n with
  | nil => rfl
  | cons x xs ih =>
      rw [List.enumFrom_cons, List.filter_cons]
      have hc : decide (n ≠ s1 ∧ n ≠ s2) = true := by
        simp only [decide_eq_true_eq]
        omega
      rw [hc]
      simp only [if_true, List.map_cons]
      rw [ih (n + 1) (by omega) (by omega)]

/-- Removing index `s2` (with `s1` absent from the range): the removed
element reinserted at the front is a permutation of the original list. -/
lemma enumFrom_filter_remove_snd {β : Type} (l : List β) (n s1 s2 : ℕ)
    (h1 : s1 < n) (h2 : n ≤ s2) (h2' : s2 - n < l.length) :
    l.get ⟨s2 - n, h2'⟩ ::
      ((List.enumFrom n l).filter
        (fun ie => decide (ie.1 ≠ s1 ∧ ie.1 ≠ s2))).map Prod.snd ~ l := by
  induction l generalizing n with
  | nil => simp at h2'
  | cons x xs ih =>
      rw [List.enumFrom_cons, List.filter_cons]
      by_cases hn : n = s2
      · have hc : decide (n ≠ s1 ∧ n ≠ s2) = false := by
          simp only [decide_eq_false_iff_not, not_and]
          intro
          omega
        rw [hc]
        simp only [Bool.false_eq_true, if_false]
        have hz : s2 - n = 0 := by omega
        have hget : (x :: xs).get ⟨s2 - n, h2'⟩ = x := by
          simp [hz]
        rw [hget, enumFrom_filter_two_all_kept xs (n + 1) s1 s2 (by omega) (by omega)]
      · have hc : decide (n ≠ s1 ∧ n ≠ s2) = true := by
          simp only [decide_eq_true_eq]
          omega
        rw [hc]
        simp only [if_true, List.map_cons]
        have hpos : 0 < s2 - n := by omega
        have hlt : s2 - (n + 1) < xs.length := by
          simp at h2'
          omega
        have hget : (x :: xs).get ⟨s2 - n, h2'⟩ = xs.get ⟨s2 - (n + 1), hlt⟩ := by
          have : s2 - n = (s2 - (n + 1)) + 1 := by omega
          simp only [this, List.get_cons_succ]
        rw [hget]
        refine (Perm.swap x _ _).trans (Perm.cons x ?_)
        exact ih (n + 1) (by omega) (by omega) hlt

/-- Removing index `s1` (with `s2` absent from the range), mirror image of
`enumFrom_filter_remove_snd`. -/
lemma enumFrom_filter_remove_fst {β : Type} (l : List β) (n s1 s2 : ℕ)
    (h2 : s2 < n) (h1 : n ≤ s1) (h1' : s1 - n < l.length) :
    l.get ⟨s1 - n, h1'⟩ ::
      ((List.enumFrom n l).filter
        (fun ie => decide (ie.1 ≠ s1 ∧ ie.1 ≠ s2))).map Prod.snd ~ l := by
  have := enumFrom_filter_remove_snd l n s2 s1 h2 h1 h1'
  refine Perm.trans ?_ this
  have hcongr : (List.enumFrom n l).filter
        (fun ie => decide (ie.1 ≠ s1 ∧ ie.1 ≠ s2)) =
      (List.enumFrom n l).filter
        (fun ie => decide (ie.1 ≠ s2 ∧ ie.1 ≠ s1)) := by
    refine List.filter_congr (fun a _ => ?_)
    simp only [decide_eq_decide]
    exact and_comm
  rw [hcongr]

/-- Pulling two distinct indices out of a list: the two extracted elements
consed onto the filtered remainder permute to the original list.  This is
exactly the bookkeeping of `_split_node`'s seeds-plus-remaining
decomposition. -/
lemma enumFrom_filter_remove_two {β : Type} (l : List β) (n s1 s2 : ℕ)
    (h1 : n ≤ s1) (h1' : s1 - n < l.length) (h2 : n ≤ s2)
    (h2' : s2 - n < l.length) (hne : s1 ≠ s2) :
    l.get ⟨s1 - n, h1'⟩ :: l.get ⟨s2 - n, h2'⟩ ::
      ((List.enumFrom n l).filter
        (fun ie => decide (ie.1 ≠ s1 ∧ ie.1 ≠ s2))).map Prod.snd ~ l := by
  induction l generalizing n with
  | nil => simp at h1'
  | cons x xs ih =>
      rw [List.enumFrom_cons, List.filter_cons]
      by_cases hn1 : n = s1
      · have hc : decide (n ≠ s1 ∧ n ≠ s2) = false := by
          simp only [decide_eq_false_iff_not, not_and]
          intro
          omega
        rw [hc]
        simp only [Bool.false_eq_true, if_false]
        have hz : s1 - n = 0 := by omega
        have hget : (x :: xs).get ⟨s1 - n, h1'⟩ = x := by simp [hz]
        rw [hget]
        refine Perm.cons x ?_
        have hlt : s2 - (n + 1) < xs.length := by
          simp at h2'
          omega
        have hget2 : (x :: xs).get ⟨s2 - n, h2'⟩ = xs.get ⟨s2 - (n + 1), hlt⟩ := by
          have : s2 - n = (s2 - (n + 1)) + 1 := by omega
          simp only [this, List.get_cons_succ]
        rw [hget2]
        exact enumFrom_filter_remove_snd xs (n + 1) s1 s2 (by omega) (by omega) hlt
      · by_cases hn2 : n = s2
        · have hc : decide (n ≠ s1 ∧ n ≠ s2) = false := by
            simp only [decide_eq_false_iff_not, not_and]
            intro
            omega
          rw [hc]
          simp only [Bool.false_eq_true, if_false]
          have hz : s2 - n = 0 := by omega
          have hget2 : (x :: xs).get ⟨s2 - n, h2'⟩ = x := by simp [hz]
          rw [hget2]
          have hlt : s1 - (n + 1) < xs.length := by
            simp at h1'
            omega
          have hget1 : (x :: xs).get ⟨s1 - n, h1'⟩ = xs.get ⟨s1 - (n + 1), hlt⟩ := by
            have : s1 - n = (s1 - (n + 1)) + 1 := by omega
            simp only [this, List.get_cons_succ]
          rw [hget1]
          refine (Perm.swap x _ _).trans (Perm.cons x ?_)
          exact enumFrom_filter_remove_fst xs (n + 1) s1 s2 (by omega) (by omega) hlt
        · have hc : decide (n ≠ s1 ∧ n ≠ s2) = true := by
            simp only [decide_eq_true_eq]
            omega
          rw [hc]
          simp only [if_true, List.map_cons]
          have hlt1 : s1 - (n + 1) < xs.length := by
            simp at h1'
            omega
          have hlt2 : s2 - (n + 1) < xs.length := by
            simp at h2'
            omega
          have hget1 : (x :: xs).get ⟨s1 - n, h1'⟩ = xs.get ⟨s1 - (n + 1), hlt1⟩ := by
            have : s1 - n = (s1 - (n + 1)) + 1 := by omega
            simp only [this, List.get_cons_succ]
          have hget2 : (x :: xs).get ⟨s2 - n, h2'⟩ = xs.get ⟨s2 - (n + 1), hlt2⟩ := by
            have : s2 - n = (s2 - (n + 1)) + 1 := by omega
            simp only [this, List.get_cons_succ]
          rw [hget1, hget2]
          have hih := ih (n + 1) (by omega) hlt1 (by omega) hlt2
          refine Perm.trans ?_ (Perm.cons x hih)
          exact (Perm.cons _ (Perm.swap x _ _)).trans (Perm.swap x _ _)

/-- A fold that either keeps its accumulator or jumps to the first
component of a visited pair stays below any bound dominating both. -/
lemma foldl_choice_lt {β : Type} (q : β → Prop) [DecidablePred q]
    (pick : β → ℕ) (l : List β) (init bound : ℕ) (hinit : init < bound)
    (hall : ∀ x ∈ l, pick x < bound) :
    l.foldl (fun a x => if q x then pick x else a) init < bound := by
  induction l generalizing init with
  | nil => exact hinit
  | cons x xs ih =>
      rw [List.foldl_cons]
      refine ih _ ?_ (fun y hy => hall y (List.mem_cons_of_mem x hy))
      by_cases hq : q x
      · rw [if_pos hq]
        exact hall x (List.mem_cons_self x xs)
      · rwa [if_neg hq]

/-- Every index produced by `axisPass` stays below the entry count,
provided the incoming state's indices do. -/
lemma axisPass_indices_lt (lo hi : MBR α → α) (es : List (MBR α × γ))
    (st : Option α × ℕ × ℕ) (h1 : st.2.1 < es.length) (h2 : st.2.2 < es.length) :
    (axisPass lo hi es st).2.1 < es.length ∧
      (axisPass lo hi es st).2.2 < es.length := by
  cases es with
  | nil => exact ⟨h1, h2⟩
  | cons e rest =>
      rw [axisPass]
      have hidx : ∀ ie ∈ (e :: rest).enum, ie.1 < (e :: rest).length := by
        intro ie hie
        exact (List.mem_enum hie).1
      dsimp only
      refine ⟨?_, ?_⟩ <;> (repeat' split) <;>
        first
          | exact h1
          | exact h2
          | exact foldl_choice_lt _ _ _ _ _ h1 hidx
          | exact foldl_choice_lt _ _ _ _ _ h2 hidx

/-- `_linear_pick_seeds` on a list of at least two entries returns two
distinct in-range indices. -/
lemma pickSeeds_valid (es : List (MBR α × γ)) (h : 2 ≤ es.length) :
    (pickSeeds es).1 < es.length ∧ (pickSeeds es).2 < es.length ∧
      (pickSeeds es).1 ≠ (pickSeeds es).2 := by
  have hlen1 : 1 < es.length := by omega
  obtain ⟨ha1, ha2⟩ := axisPass_indices_lt (α := α) (·.min_lat) (·.max_lat) es
    (none, 0, 1) (by simp only; omega) (by simp only; omega)
  obtain ⟨hb1, hb2⟩ := axisPass_indices_lt (·.min_lon) (·.max_lon) es _ ha1 ha2
  rw [pickSeeds]
  simp only [if_pos hlen1]
  split
  · refine ⟨hb1, Nat.mod_lt _ (by omega), ?_⟩
    set s1 := (axisPass (·.min_lon) (·.max_lon) es
      (axisPass (·.min_lat) (·.max_lat) es (none, 0, 1))).2.1 with hs1
    by_cases htop : s1 + 1 < es.length
    · rw [Nat.mod_eq_of_lt htop]
      omega
    · have hb1s : s1 < es.length := hb1
      have heq : s1 + 1 = es.length := by omega
      rw [heq, Nat.mod_self]
      omega
  · rename_i hcond
    push_neg at hcond
    exact ⟨hb1, hb2, fun heq => absurd (hcond heq) (by omega)⟩

/-- `_split_node`'s seeds-and-remaining decomposition, with the seed
lookups resolved. -/
lemma splitEntries_eq (es : List (MBR α × γ)) (h : 2 ≤ es.length) :
    ∃ (hv1 : (pickSeeds es).1 < es.length) (hv2 : (pickSeeds es).2 < es.length),
      splitEntries es =
        distribute
          ((es.enum.filter (fun ie =>
            decide (ie.1 ≠ (pickSeeds es).1 ∧ ie.1 ≠ (pickSeeds es).2))).map Prod.snd)
          [es.get ⟨(pickSeeds es).1, hv1⟩] [es.get ⟨(pickSeeds es).2, hv2⟩] := by
  obtain ⟨hv1, hv2, _⟩ := pickSeeds_valid es h
  refine ⟨hv1, hv2, ?_⟩
  rw [splitEntries]
  rw [List.getElem?_eq_getElem hv1, List.getElem?_eq_getElem hv2]
  simp only [List.get_eq_getElem]

/-- The two halves of a split hold exactly the entries of the split node,
each exactly once. -/
lemma splitEntries_perm (es : List (MBR α × γ)) (h : 2 ≤ es.length) :
    (splitEntries es).1 ++ (splitEntries es).2 ~ es := by
  obtain ⟨hv1, hv2, heq⟩ := splitEntries_eq es h
  obtain ⟨-, -, hne⟩ := pickSeeds_valid es h
  rw [heq]
  refine (distribute_perm _ _ _).trans ?_
  have hrem := enumFrom_filter_remove_two es 0 (pickSeeds es).1 (pickSeeds es).2
    (Nat.zero_le _) (by simpa using hv1) (Nat.zero_le _) (by simpa using hv2) hne
  simp only [Nat.sub_zero] at hrem
  refine Perm.trans ?_ hrem
  simp only [List.singleton_append, List.cons_append, List.nil_append]
  exact Perm.refl _

/-- Length bookkeeping of a split: the halves partition the entries and
each half is non-empty. -/
lemma splitEntries_lengths (es : List (MBR α × γ)) (h : 2 ≤ es.length) :
    (splitEntries es).1.length + (splitEntries es).2.length = es.length ∧
      1 ≤ (splitEntries es).1.length ∧ 1 ≤ (splitEntries es).2.length := by
  have hsum : (splitEntries es).1.length + (splitEntries es).2.length = es.length := by
    have := (splitEntries_perm es h).length_eq
    simpa using this
  obtain ⟨hv1, hv2, heq⟩ := splitEntries_eq es h
  refine ⟨hsum, ?_, ?_⟩
  · have := distribute_le_length_left
      ((es.enum.filter (fun ie =>
        decide (ie.1 ≠ (pickSeeds es).1 ∧ ie.1 ≠ (pickSeeds es).2))).map Prod.snd)
      [es.get ⟨(pickSeeds es).1, hv1⟩] [es.get ⟨(pickSeeds es).2, hv2⟩]
    rw [heq]
    simpa using this
  · have := distribute_le_length_right
      ((es.enum.filter (fun ie =>
        decide (ie.1 ≠ (pickSeeds es).1 ∧ ie.1 ≠ (pickSeeds es).2))).map Prod.snd)
      [es.get ⟨(pickSeeds es).1, hv1⟩] [es.get ⟨(pickSeeds es).2, hv2⟩]
    rw [heq]
    simpa using this

/-! ### The ChooseLeaf fold: lexicographic minimality of the chosen entry -/

/-- The ordering maintained by `_choose_leaf`'s running minimum:
smaller enlargement first, then smaller original area. -/
def lexLE (x y : ℕ × α × α) : Prop :=
  x.2.1 < y.2.1 ∨ (x.2.1 = y.2.1 ∧ x.2.2 ≤ y.2.2)

lemma lexLE_refl (x : ℕ × α × α) : lexLE x x := Or.inr ⟨rfl, le_rfl⟩

lemma lexLE_trans {x y z : ℕ × α × α} (h1 : lexLE x y) (h2 : lexLE y z) :
    lexLE x z := by
  rcases h1 with h1 | ⟨h1e, h1a⟩ <;> rcases h2 with h2 | ⟨h2e, h2a⟩
  · exact Or.inl (h1.trans h2)
  · exact Or.inl (h2e ▸ h1)
  · exact Or.inl (h1e ▸ h2)
  · exact Or.inr ⟨h1e.trans h2e, h1a.trans h2a⟩

/-- Running `_choose_leaf`'s fold from a concrete state yields a state that
is one of the visited `(index, enlargement, area)` triples or the start
state, and is `lexLE`-below the start state and every visited triple. -/
lemma chooseFold_spec (m : MBR α) (l : List (ℕ × (MBR α × γ))) (st : ℕ × α × α) :
    ∃ st' : ℕ × α × α, l.foldl (chooseStep m) (some st) = some st' ∧
      (st' = st ∨ ∃ ie ∈ l, st' = (ie.1, enlargement m ie.2, ie.2.1.area)) ∧
      lexLE st' st ∧
      ∀ ie ∈ l, lexLE st' (ie.1, enlargement m ie.2, ie.2.1.area) := by
  induction l generalizing st with
  | nil => exact ⟨st, rfl, Or.inl rfl, lexLE_refl st, by simp⟩
  | cons ie rest ih =>
      rw [List.foldl_cons, chooseStep]
      split
      · rename_i hcond
        obtain ⟨st', heq, horig, hle, hall⟩ := ih (ie.1, enlargement m ie.2, ie.2.1.area)
        have hstep : lexLE (ie.1, enlargement m ie.2, ie.2.1.area) st := by
          rcases hcond with h | ⟨he, ha⟩
          · exact Or.inl h
          · exact Or.inr ⟨he, le_of_lt ha⟩
        refine ⟨st', heq, ?_, lexLE_trans hle hstep, ?_⟩
        · rcases horig with h | ⟨x, hx, hx'⟩
          · exact Or.inr ⟨ie, List.mem_cons_self ie rest, h⟩
          · exact Or.inr ⟨x, List.mem_cons_of_mem ie hx, hx'⟩
        · intro x hx
          rcases List.mem_cons.1 hx with h | h
          · subst h
            exact hle
          · exact hall x h
      · rename_i hcond
        obtain ⟨st', heq, horig, hle, hall⟩ := ih st
        have hstep : lexLE st (ie.1, enlargement m ie.2, ie.2.1.area) := by
          push_neg at hcond
          rcases lt_or_eq_of_le hcond.1 with h | h
          · exact Or.inl h
          · exact Or.inr ⟨h, hcond.2 h.symm⟩
        refine ⟨st', heq, ?_, hle, ?_⟩
        · rcases horig with h | ⟨x, hx, hx'⟩
          · exact Or.inl h
          · exact Or.inr ⟨x, List.mem_cons_of_mem ie hx, hx'⟩
        · intro x hx
          rcases List.mem_cons.1 hx with h | h
          · subst h
            exact lexLE_trans hle hstep
          · exact hall x h

omit [LinearOrderedField α] in
/-- Reading a mapped list at a successor position. -/
lemma getD_map_cons_succ {δ : Type} (f : MBR α × γ → δ) (z : δ)
    (e0 : MBR α × γ) (rest : List (MBR α × γ)) (k : ℕ) (hk : k < rest.length) :
    ((e0 :: rest).map f).getD (k + 1) z = f (rest.get ⟨k, hk⟩) := by
  rw [List.getD_eq_getElem _ z (by simpa using Nat.succ_lt_succ hk)]
  simp

/-- `chooseIdx` on a non-empty list: the chosen index is in range and its
entry is lexicographically minimal over all entries — smallest area
enlargement, and smallest original area among entries tied on
enlargement. -/
lemma chooseIdx_spec (es : List (MBR α × γ)) (m : MBR α) (h : es ≠ []) :
    chooseIdx es m < es.length ∧
      ∀ k, k < es.length →
        ((es.map (enlargement m)).getD (chooseIdx es m) 0 <
            (es.map (enlargement m)).getD k 0 ∨
          ((es.map (enlargement m)).getD (chooseIdx es m) 0 =
              (es.map (enlargement m)).getD k 0 ∧
            (es.map (fun e => e.1.area)).getD (chooseIdx es m) 0 ≤
              (es.map (fun e => e.1.area)).getD k 0)) := by
  obtain ⟨e0, rest, rfl⟩ := List.exists_cons_of_ne_nil h
  rw [chooseIdx, List.enum_cons, List.foldl_cons, chooseStep]
  obtain ⟨st', heq, horig, hle, hall⟩ :=
    chooseFold_spec m (List.enumFrom 1 rest) (0, enlargement m e0, e0.1.area)
  rw [heq]
  simp only [Option.elim]
  have hlt : st'.1 < (e0 :: rest).length := by
    rcases horig with hh | ⟨ie, hie, hh⟩
    · rw [hh]
      simp
    · obtain ⟨-, hlt2, -⟩ := List.mem_enumFrom hie
      rw [hh]
      simp only [List.length_cons]
      omega
  have htriple : st'.2.1 = ((e0 :: rest).map (enlargement m)).getD st'.1 0 ∧
      st'.2.2 = ((e0 :: rest).map (fun e => e.1.area)).getD st'.1 0 := by
    rcases horig with hh | ⟨ie, hie, hh⟩
    · rw [hh]
      simp
    · obtain ⟨hge, hlt2, hval⟩ := List.mem_enumFrom hie
      have hk1 : ie.1 - 1 < rest.length := by omega
      have hidx : ie.1 = (ie.1 - 1) + 1 := by omega
      have hval2 : ie.2 = rest.get ⟨ie.1 - 1, hk1⟩ := by
        rw [hval]
        simp
      rw [hh, hidx, getD_map_cons_succ _ _ _ _ _ hk1,
        getD_map_cons_succ _ _ _ _ _ hk1, hval2]
      exact ⟨rfl, rfl⟩
  refine ⟨hlt, ?_⟩
  intro k hk
  have hlex : lexLE st' (k, ((e0 :: rest).map (enlargement m)).getD k 0,
      ((e0 :: rest).map (fun e => e.1.area)).getD k 0) := by
    rcases Nat.eq_zero_or_pos k with rfl | hkpos
    · have h0 : ((e0 :: rest).map (enlargement m)).getD 0 0 = enlargement m e0 := by
        simp
      have h0' : ((e0 :: rest).map (fun e => e.1.area)).getD 0 0 = e0.1.area := by
        simp
      rw [h0, h0']
      exact hle
    · have hk1 : k - 1 < rest.length := by
        simp only [List.length_cons] at hk
        omega
      have hidx : k = (k - 1) + 1 := by omega
      have hmem : ((k, rest.get ⟨k - 1, hk1⟩) : ℕ × (MBR α × γ)) ∈
          List.enumFrom 1 rest := by
        have hlen : k - 1 < (List.enumFrom 1 rest).length := by simpa using hk1
        have hgl : (List.enumFrom 1 rest).get ⟨k - 1, hlen⟩ =
            (1 + (k - 1), rest[k - 1]) := List.getElem_enumFrom rest 1 (k - 1) _
        have hin := List.get_mem (List.enumFrom 1 rest) (k - 1) hlen
        rw [hgl] at hin
        have : 1 + (k - 1) = k := by omega
        rw [this] at hin
        simpa using hin
      have := hall _ hmem
      rw [hidx, getD_map_cons_succ _ _ _ _ _ hk1, getD_map_cons_succ _ _ _ _ _ hk1]
      exact this
  rw [lexLE] at hlex
  rcases hlex with hcase | ⟨hce, hca⟩
  · rw [htriple.1] at hcase
    exact Or.inl hcase
  · rw [htriple.1] at hce
    rw [htriple.2] at hca
    exact Or.inr ⟨hce, hca⟩

/-! ### The insertion invariants: capacity, non-empty internals, balance,
and exact entry counts -/

lemma NodeCounts.add_total (a b : NodeCounts) :
    (a + b).total_entries = a.total_entries + b.total_entries := rfl

lemma countNodesEntries_total (es : List (MBR α × RTreeNode α)) :
    (countNodesEntries es).total_entries =
      (es.map (fun e => (countNodes e.2).total_entries)).sum := by
  induction es with
  | nil => rfl
  | cons e rest ih =>
      rw [countNodesEntries, NodeCounts.add_total, ih, List.map_cons, List.sum_cons]

lemma countNodes_leaf_total (m : Option (MBR α)) (es : List (MBR α × Point α)) :
    (countNodes (.leaf m es)).total_entries = es.length := rfl

lemma countNodes_internal_total (m : Option (MBR α)) (es : List (MBR α × RTreeNode α)) :
    (countNodes (.internal m es)).total_entries =
      (es.map (fun e => (countNodes e.2).total_entries)).sum := by
  rw [countNodes, NodeCounts.add_total, countNodesEntries_total]
  simp

lemma mem_allNodesEntries {n : RTreeNode α} {es : List (MBR α × RTreeNode α)} :
    n ∈ allNodesEntries es ↔ ∃ e ∈ es, n ∈ allNodes e.2 := by
  induction es with
  | nil => simp [allNodesEntries]
  | cons e rest ih =>
      rw [allNodesEntries, List.mem_append, ih]
      simp

lemma mem_allNodes_internal {n : RTreeNode α} {m : Option (MBR α)}
    {es : List (MBR α × RTreeNode α)} :
    n ∈ allNodes (.internal m es) ↔
      n = .internal m es ∨ ∃ e ∈ es, n ∈ allNodes e.2 := by
  rw [allNodes, List.mem_cons, mem_allNodesEntries]

lemma mem_allNodes_leaf {n : RTreeNode α} {m : Option (MBR α)}
    {es : List (MBR α × Point α)} :
    n ∈ allNodes (.leaf m es) ↔ n = .leaf m es := by
  rw [allNodes]
  simp

lemma self_mem_allNodes (t : RTreeNode α) : t ∈ allNodes t := by
  cases t with
  | leaf m es => simp [allNodes]
  | internal m es => simp [allNodes]

lemma insertIntoChild_eq (M : ℕ) (pm : MBR α) (p : Point α)
    (es : List (MBR α × RTreeNode α)) (i : ℕ) :
    insertIntoChild M pm p es i =
      (es[i]?).map (fun e => (e.1, insertNode M pm p e.2)) := by
  induction es generalizing i with
  | nil => simp [insertIntoChild]
  | cons e rest ih =>
      cases i with
      | zero => simp [insertIntoChild]
      | succ j =>
          rw [insertIntoChild, ih]
          simp

/-- Height-uniformity: `Bal t h` says every leaf of `t` is at depth `h`. -/
inductive Bal : RTreeNode α → ℕ → Prop where
  | leaf : ∀ m es, Bal (.leaf m es) 0
  | internal : ∀ m es h, (∀ e ∈ es, Bal e.2 h) → Bal (.internal m es) (h + 1)

/-- The insertion invariant: every node holds at most `M` entries, internal
nodes are never empty, and all leaves sit at depth `h`. -/
def Inv (M h : ℕ) (t : RTreeNode α) : Prop :=
  (∀ n ∈ allNodes t, n.entriesLength ≤ M) ∧
    (∀ m es, (RTreeNode.internal m es) ∈ allNodes t → es ≠ []) ∧
    Bal t h

/-- What insertion guarantees, by result shape: the updated node (or each
split half) satisfies the invariant at the same depth, and the total leaf
entry count across the result is the old count plus one. -/
def InsInv (M h tot : ℕ) : InsResult α → Prop
  | .one t' => Inv M h t' ∧ (countNodes t').total_entries = tot + 1
  | .two e1 e2 => Inv M h e1.2 ∧ Inv M h e2.2 ∧
      e1.2.entriesLength ≤ M ∧ e2.2.entriesLength ≤ M ∧
      (countNodes e1.2).total_entries + (countNodes e2.2).total_entries = tot + 1

lemma inv_leaf_elim {M h : ℕ} {m : Option (MBR α)} {es : List (MBR α × Point α)}
    (hinv : Inv M h (.leaf m es)) : es.length ≤ M ∧ h = 0 := by
  obtain ⟨hlen, -, hbal⟩ := hinv
  refine ⟨hlen _ (self_mem_allNodes _), ?_⟩
  cases hbal
  rfl

lemma inv_leaf_intro {M : ℕ} (m : Option (MBR α)) {es : List (MBR α × Point α)}
    (hlen : es.length ≤ M) : Inv M 0 (.leaf m es) := by
  refine ⟨?_, ?_, Bal.leaf m es⟩
  · intro n hn
    rw [mem_allNodes_leaf] at hn
    subst hn
    exact hlen
  · intro m' es' hmem
    rw [mem_allNodes_leaf] at hmem
    cases hmem

lemma inv_internal_intro {M h : ℕ} (nm : Option (MBR α))
    {es : List (MBR α × RTreeNode α)} (hself : es.length ≤ M) (hne : es ≠ [])
    (hch : ∀ e ∈ es, Inv M h e.2) : Inv M (h + 1) (.internal nm es) := by
  refine ⟨?_, ?_, Bal.internal nm es h (fun e he => (hch e he).2.2)⟩
  · intro n hn
    rw [mem_allNodes_internal] at hn
    rcases hn with rfl | ⟨e, he, hn⟩
    · exact hself
    · exact (hch e he).1 n hn
  · intro m' es' hmem
    rw [mem_allNodes_internal] at hmem
    rcases hmem with heq | ⟨e, he, hmem⟩
    · cases heq
      exact hne
    · exact (hch e he).2.1 m' es' hmem

lemma inv_internal_elim {M h : ℕ} {nm : Option (MBR α)}
    {es : List (MBR α × RTreeNode α)} (hinv : Inv M h (.internal nm es)) :
    es.length ≤ M ∧ es ≠ [] ∧ ∃ h', h = h' + 1 ∧ ∀ e ∈ es, Inv M h' e.2 := by
  obtain ⟨hlen, hwf, hbal⟩ := hinv
  have hself := hlen _ (self_mem_allNodes (.internal nm es))
  have hne := hwf nm es (self_mem_allNodes _)
  cases hbal with
  | internal _ _ h' hch =>
      refine ⟨hself, hne, h', rfl, fun e he => ⟨?_, ?_, hch e he⟩⟩
      · intro n hn
        exact hlen n (mem_allNodes_internal.2 (Or.inr ⟨e, he, hn⟩))
      · intro m' es' hmem
        exact hwf m' es' (mem_allNodes_internal.2 (Or.inr ⟨e, he, hmem⟩))

lemma sum_map_set {β : Type} (es : List β) (i : ℕ) (hi : i < es.length)
    (x : β) (f : β → ℕ) :
    ((es.set i x).map f).sum + f (es.get ⟨i, hi⟩) = (es.map f).sum + f x := by
  rw [List.set_eq_take_cons_drop x hi]
  conv_rhs => rw [← List.take_append_drop i es, List.drop_eq_getElem_cons hi]
  simp only [List.map_append, List.map_cons, List.sum_append, List.sum_cons,
    List.get_eq_getElem]
  omega

lemma sum_map_eraseIdx {β : Type} (es : List β) (i : ℕ) (hi : i < es.length)
    (f : β → ℕ) :
    ((es.eraseIdx i).map f).sum + f (es.get ⟨i, hi⟩) = (es.map f).sum := by
  rw [List.eraseIdx_eq_take_drop_succ]
  conv_rhs => rw [← List.take_append_drop i es, List.drop_eq_getElem_cons hi]
  simp only [List.map_append, List.map_cons, List.sum_append, List.sum_cons,
    List.get_eq_getElem]
  omega

/-- `insertIntoChild` at an in-range index: descend into exactly that
child. -/
lemma insertIntoChild_get (M : ℕ) (pm : MBR α) (p : Point α)
    (es : List (MBR α × RTreeNode α)) (i : ℕ) (hci : i < es.length) :
    insertIntoChild M pm p es i =
      some ((es.get ⟨i, hci⟩).1, insertNode M pm p (es.get ⟨i, hci⟩).2) := by
  rw [insertIntoChild_eq, List.getElem?_eq_getElem hci]
  rfl

/-- The master insertion lemma: under the invariant, `insertNode` keeps
every node within capacity, keeps internal nodes non-empty, keeps all
leaves at the same depth (splits stay on their level), and adds exactly one
leaf entry overall. -/
lemma insert_main (M : ℕ) (hM : 2 ≤ M) (pm : MBR α) (p : Point α) :
    ∀ (t : RTreeNode α) (h : ℕ), Inv M h t →
      InsInv M h (countNodes t).total_entries (insertNode M pm p t) := by
  intro t
  induction t using RTreeNode.inductionOn with
  | hleaf m es =>
      intro h hinv
      obtain ⟨hlen, rfl⟩ := inv_leaf_elim hinv
      have hlenapp : (es ++ [(pm, p)]).length = es.length + 1 := by simp
      rw [insertNode]
      dsimp only
      split
      · rename_i hover
        rw [hlenapp] at hover
        have h2 : 2 ≤ (es ++ [(pm, p)]).length := by omega
        obtain ⟨hsum, hge1, hge2⟩ := splitEntries_lengths (es ++ [(pm, p)]) h2
        rw [hlenapp] at hsum
        simp only [InsInv, leafHalf]
        refine ⟨inv_leaf_intro _ (by omega), inv_leaf_intro _ (by omega), ?_, ?_, ?_⟩
        · simp only [RTreeNode.entriesLength]
          omega
        · simp only [RTreeNode.entriesLength]
          omega
        · simp only [countNodes_leaf_total]
          omega
      · rename_i hnot
        rw [hlenapp] at hnot
        simp only [InsInv]
        refine ⟨inv_leaf_intro _ ?_, ?_⟩
        · rw [hlenapp]
          omega
        · simp only [countNodes_leaf_total, hlenapp]
  | hint nm es ih =>
      intro h hinv
      obtain ⟨hself, hne, h', rfl, hch⟩ := inv_internal_elim hinv
      have hci := (chooseIdx_spec es pm hne).1
      rw [insertNode, insertIntoChild_get M pm p es (chooseIdx es pm) hci]
      have heimem : es.get ⟨chooseIdx es pm, hci⟩ ∈ es :=
        List.get_mem es (chooseIdx es pm) hci
      have hchild := ih _ heimem h' (hch _ heimem)
      rcases hres : insertNode M pm p (es.get ⟨chooseIdx es pm, hci⟩).2
        with c' | ⟨e1, e2⟩
      · rw [hres] at hchild
        dsimp only
        simp only [InsInv] at hchild ⊢
        obtain ⟨hc'inv, hc'tot⟩ := hchild
        constructor
        · refine inv_internal_intro nm ?_ ?_ ?_
          · rw [List.length_set]
            exact hself
          · intro hnil
            have hls := List.length_set es (chooseIdx es pm)
              ((es.get ⟨chooseIdx es pm, hci⟩).1, c')
            rw [hnil] at hls
            simp only [List.length_nil] at hls
            exact hne (List.eq_nil_of_length_eq_zero hls.symm)
          · intro e he
            rcases List.mem_or_eq_of_mem_set he with hmem | rfl
            · exact hch e hmem
            · exact hc'inv
        · rw [countNodes_internal_total, countNodes_internal_total]
          have hsum := sum_map_set es (chooseIdx es pm) hci
            ((es.get ⟨chooseIdx es pm, hci⟩).1, c')
            (fun e => (countNodes e.2).total_entries)
          simp only at hsum
          omega
      · rw [hres] at hchild
        dsimp only
        simp only [InsInv] at hchild
        obtain ⟨he1inv, he2inv, -, -, htot⟩ := hchild
        have hlespos : 0 < es.length := List.length_pos.2 hne
        have hlen' : (es.eraseIdx (chooseIdx es pm) ++ [e1, e2]).length =
            es.length + 1 := by
          rw [List.length_append, List.length_eraseIdx, if_pos hci]
          simp only [List.length_cons, List.length_nil]
          omega
        have hch' : ∀ e ∈ es.eraseIdx (chooseIdx es pm) ++ [e1, e2],
            Inv M h' e.2 := by
          intro e he
          rcases List.mem_append.1 he with hmem | hmem
          · exact hch e (List.eraseIdx_subset es (chooseIdx es pm) hmem)
          · rcases List.mem_cons.1 hmem with rfl | hmem
            · exact he1inv
            · rcases List.mem_cons.1 hmem with rfl | hmem
              · exact he2inv
              · cases hmem
        have hsum' : ((es.eraseIdx (chooseIdx es pm) ++ [e1, e2]).map
              (fun e => (countNodes e.2).total_entries)).sum =
            (es.map (fun e => (countNodes e.2).total_entries)).sum + 1 := by
          rw [List.map_append, List.sum_append]
          have hsume := sum_map_eraseIdx es (chooseIdx es pm) hci
            (fun e => (countNodes e.2).total_entries)
          simp only at hsume
          simp only [List.map_cons, List.map_nil, List.sum_cons, List.sum_nil]
          omega
        split
        · rename_i hover
          rw [hlen'] at hover
          have h2 : 2 ≤ (es.eraseIdx (chooseIdx es pm) ++ [e1, e2]).length := by
            omega
          obtain ⟨hsum, hge1, hge2⟩ :=
            splitEntries_lengths (es.eraseIdx (chooseIdx es pm) ++ [e1, e2]) h2
          have hperm := splitEntries_perm (es.eraseIdx (chooseIdx es pm) ++ [e1, e2]) h2
          rw [hlen'] at hsum
          dsimp only [InsInv, internalHalf, RTreeNode.entriesLength]
          refine ⟨?_, ?_, by omega, by omega, ?_⟩
          · refine inv_internal_intro _ (by omega) ?_ ?_
            · intro hnil
              rw [hnil] at hge1
              simp at hge1
            · intro e he
              exact hch' e (hperm.subset (List.mem_append.2 (Or.inl he)))
          · refine inv_internal_intro _ (by omega) ?_ ?_
            · intro hnil
              rw [hnil] at hge2
              simp at hge2
            · intro e he
              exact hch' e (hperm.subset (List.mem_append.2 (Or.inr he)))
          · rw [countNodes_internal_total, countNodes_internal_total,
              countNodes_internal_total]
            have hpsum : ((splitEntries (es.eraseIdx (chooseIdx es pm) ++ [e1, e2])).1.map
                  (fun e => (countNodes e.2).total_entries)).sum +
                ((splitEntries (es.eraseIdx (chooseIdx es pm) ++ [e1, e2])).2.map
                  (fun e => (countNodes e.2).total_entries)).sum =
                ((es.eraseIdx (chooseIdx es pm) ++ [e1, e2]).map
                  (fun e => (countNodes e.2).total_entries)).sum := by
              rw [← List.sum_append, ← List.map_append]
              exact (hperm.map (fun e => (countNodes e.2).total_entries)).sum_eq
            omega
        · rename_i hnot
          rw [hlen'] at hnot
          dsimp only [InsInv]
          constructor
          · refine inv_internal_intro _ (by omega) ?_ hch'
            intro hnil
            rw [hnil] at hlen'
            simp only [List.length_nil] at hlen'
            omega
          · rw [countNodes_internal_total, countNodes_internal_total]
            omega

/-- Invariant preservation and entry counting through a root-level insert
(including the new-root-on-split case). -/
lemma insertRoot_inv (M : ℕ) (hM : 2 ≤ M) (root : RTreeNode α) (p : Point α)
    (h : ℕ) (hinv : Inv M h root) :
    ∃ h', Inv M h' (insertRoot M root p) ∧
      (countNodes (insertRoot M root p)).total_entries =
        (countNodes root).total_entries + 1 := by
  have hmain := insert_main M hM (MBR.from_point p) p root h hinv
  rw [insertRoot]
  rcases hres : insertNode M (MBR.from_point p) p root with t' | ⟨e1, e2⟩
  · rw [hres] at hmain
    simp only [InsInv] at hmain
    exact ⟨h, hmain.1, hmain.2⟩
  · rw [hres] at hmain
    dsimp only
    simp only [InsInv] at hmain
    obtain ⟨h1inv, h2inv, hl1, hl2, htot⟩ := hmain
    refine ⟨h + 1, ?_, ?_⟩
    · refine inv_internal_intro _ (by simp; omega) (by simp) ?_
      intro e he
      rcases List.mem_cons.1 he with rfl | he2
      · exact h1inv
      · rcases List.mem_cons.1 he2 with rfl | he3
        · exact h2inv
        · cases he3
    · rw [countNodes_internal_total]
      simp only [List.map_cons, List.map_nil, List.sum_cons, List.sum_nil]
      omega

/-- Building a tree from a list of points: the invariant holds at some
uniform leaf depth and the leaves hold exactly the inserted points,
counted. -/
lemma buildTree_inv (M : ℕ) (hM : 2 ≤ M) (ps : List (Point α)) :
    ∃ h, Inv M h (buildTree M ps).root ∧
      (countNodes (buildTree M ps).root).total_entries = ps.length := by
  have H : ∀ (qs : List (Point α)) (t : RTree α) (h : ℕ),
      t.max_entries = M → Inv M h t.root →
      ∃ h', Inv M h' (qs.foldl RTree.insertPoint t).root ∧
        (countNodes (qs.foldl RTree.insertPoint t).root).total_entries =
          (countNodes t.root).total_entries + qs.length := by
    intro qs
    induction qs with
    | nil => exact fun t h _ hinv => ⟨h, hinv, by simp⟩
    | cons p rest ihp =>
        intro t h hMq hinv
        rw [List.foldl_cons]
        obtain ⟨h2, hinv2, htot2⟩ := insertRoot_inv M hM t.root p h hinv
        have hroot : (t.insertPoint p).root = insertRoot M t.root p := by
          rw [RTree.insertPoint, hMq]
        obtain ⟨h3, hinv3, htot3⟩ := ihp (t.insertPoint p) h2
          (by rw [RTree.insertPoint]; exact hMq) (by rw [hroot]; exact hinv2)
        refine ⟨h3, hinv3, ?_⟩
        rw [htot3, hroot, htot2]
        simp only [List.length_cons]
        omega
  obtain ⟨h, hinv, htot⟩ := H ps (RTree.init M) 0 rfl
    (inv_leaf_intro none (by simp))
  exact ⟨h, hinv, by rw [buildTree, htot]; simp [RTree.init, countNodes_leaf_total]⟩

/-- Depths collected by `leafDepths` of a `Bal`anced subtree are all `h`. -/
lemma mem_leafDepthsEntries {d : ℕ} {es : List (MBR α × RTreeNode α)} :
    d ∈ leafDepthsEntries es ↔ ∃ e ∈ es, d ∈ leafDepths e.2 := by
  induction es with
  | nil => simp [leafDepthsEntries]
  | cons e rest ih =>
      rw [leafDepthsEntries, List.mem_append, ih]
      simp

lemma leafDepths_of_bal {t : RTreeNode α} {h : ℕ} (hbal : Bal t h) :
    ∀ d ∈ leafDepths t, d = h := by
  induction hbal with
  | leaf m es => simp [leafDepths]
  | internal m es h hch ih =>
      intro d hd
      rw [leafDepths, List.mem_map] at hd
      obtain ⟨d', hd', rfl⟩ := hd
      rw [mem_leafDepthsEntries] at hd'
      obtain ⟨e, he, hd'⟩ := hd'
      rw [ih e he d' hd']

/-- C4: with `max_entries = M ≥ 2` (the spec's data-model domain), after
any insertion sequence no reachable node holds more than `M` entries; and
the overflow test is strict — an insertion that brings a leaf to exactly
`M` entries (`es.length + 1 ≤ M`) appends without splitting. -/
theorem no_node_exceeds_max_entries (M : ℕ) (hM : 2 ≤ M) (ps : List (Point α)) :
    (∀ n ∈ allNodes (buildTree M ps).root, n.entriesLength ≤ M) ∧
    ∀ (om : Option (MBR α)) (es : List (MBR α × Point α)) (pm : MBR α) (p : Point α),
      es.length + 1 ≤ M →
      insertNode M pm p (.leaf om es) =
        .one (.leaf (unionMbr (es ++ [(pm, p)])) (es ++ [(pm, p)])) := by
  constructor
  · obtain ⟨h, hinv, -⟩ := buildTree_inv M hM ps
    exact hinv.1
  · intro om es pm p hlen
    rw [insertNode]
    dsimp only
    rw [if_neg (by simp only [List.length_append, List.length_cons,
      List.length_nil, not_lt]; omega)]

/-- Witness for `no_node_exceeds_max_entries` at a concrete capacity and
insertion sequence. -/
theorem no_node_exceeds_max_entries_witness :
    2 ≤ 3 ∧
      ((∀ n ∈ allNodes (buildTree 3 [(⟨0, 0, 0⟩ : Point ℚ), ⟨1, 1, 1⟩]).root,
          n.entriesLength ≤ 3) ∧
        ∀ (om : Option (MBR ℚ)) (es : List (MBR ℚ × Point ℚ)) (pm : MBR ℚ)
          (p : Point ℚ), es.length + 1 ≤ 3 →
          insertNode 3 pm p (.leaf om es) =
            .one (.leaf (unionMbr (es ++ [(pm, p)])) (es ++ [(pm, p)]))) :=
  ⟨by norm_num, no_node_exceeds_max_entries 3 (by norm_num) _⟩

/-- C5: with `max_entries = M ≥ 2` (the spec's data-model domain), after
any insertion sequence every leaf of the tree is at the same depth from the
root: splits propagate bottom-up and only a root split adds a level. -/
theorem all_leaves_same_depth (M : ℕ) (hM : 2 ≤ M) (ps : List (Point α)) :
    ∀ d1 ∈ leafDepths (buildTree M ps).root,
      ∀ d2 ∈ leafDepths (buildTree M ps).root, d1 = d2 := by
  obtain ⟨h, hinv, -⟩ := buildTree_inv M hM ps
  intro d1 h1 d2 h2
  rw [leafDepths_of_bal hinv.2.2 d1 h1, leafDepths_of_bal hinv.2.2 d2 h2]

/-- Witness for `all_leaves_same_depth`: the three-point scenario of the
spec (`(10,106)`, `(10.01,106)`, `(20,110)` with `max_entries = 2`) splits
the root, and both leaves end at depth 1. -/
theorem all_leaves_same_depth_witness :
    2 ≤ 2 ∧ (1 : ℕ) ∈ leafDepths (buildTree 2
        [(⟨10, 106, 0⟩ : Point ℚ), ⟨10 + 1 / 100, 106, 1⟩, ⟨20, 110, 2⟩]).root ∧
      ∀ d2 ∈ leafDepths (buildTree 2
        [(⟨10, 106, 0⟩ : Point ℚ), ⟨10 + 1 / 100, 106, 1⟩, ⟨20, 110, 2⟩]).root,
        (1 : ℕ) = d2 := by
  have hmem : (1 : ℕ) ∈ leafDepths (buildTree 2
      [(⟨10, 106, 0⟩ : Point ℚ), ⟨10 + 1 / 100, 106, 1⟩, ⟨20, 110, 2⟩]).root := by
    norm_num [buildTree, RTree.insertPoint, RTree.init, insertRoot, insertNode,
      insertIntoChild, chooseIdx, chooseStep, enlargement, axisPass, pickSeeds,
      distribute, splitEntries, unionMbr, unionMbrD, leafHalf, internalHalf,
      MBR.expand_to_include_mbr, MBR.area, MBR.from_point, List.enum,
      List.enumFrom, min_def, max_def, List.foldl, List.set, List.eraseIdx,
      List.filter, leafDepths, leafDepthsEntries]
  exact ⟨by norm_num, hmem,
    all_leaves_same_depth 2 (by norm_num) _ 1 hmem⟩

/-- C9: with `max_entries = M ≥ 2`, after inserting `n` points into a fresh
tree, `count_nodes` reports exactly `n` total leaf entries: each insert
adds one entry and splits redistribute without loss or duplication. -/
theorem count_nodes_total_entries (M : ℕ) (hM : 2 ≤ M) (ps : List (Point α)) :
    (countNodes (buildTree M ps).root).total_entries = ps.length := by
  obtain ⟨h, -, htot⟩ := buildTree_inv M hM ps
  exact htot

/-- Witness for `count_nodes_total_entries` on a concrete 3-point build. -/
theorem count_nodes_total_entries_witness :
    2 ≤ 2 ∧ (countNodes (buildTree 2
      [(⟨0, 0, 0⟩ : Point ℚ), ⟨0, 1, 1⟩, ⟨5, 5, 2⟩]).root).total_entries = 3 :=
  ⟨by norm_num, count_nodes_total_entries 2 (by norm_num) _⟩

/-! ### Search soundness: distances are honest, filtered, and sorted -/

lemma mem_searchEntries {dist : Point α → Point α → α} {c : Point α}
    {hl hlon : α} {pr : Point α × α} {es : List (MBR α × RTreeNode α)} :
    pr ∈ searchEntries dist c hl hlon es ↔
      ∃ e ∈ es, pr ∈ searchRec dist c hl hlon e.2 := by
  induction es with
  | nil => simp [searchEntries]
  | cons e rest ih =>
      rw [searchEntries, List.mem_append, ih]
      simp

/-- Every candidate pair produced by the recursive search is a stored point
paired with its `dist` to the query center. -/
lemma searchRec_pairs (dist : Point α → Point α → α) (c : Point α)
    (hl hlon : α) (t : RTreeNode α) :
    ∀ pr ∈ searchRec dist c hl hlon t, pr.2 = dist c pr.1 := by
  induction t using RTreeNode.inductionOn with
  | hleaf m es =>
      cases m with
      | none => simp [searchRec]
      | some m =>
          rw [searchRec]
          split
          · intro pr hpr
            rw [List.mem_map] at hpr
            obtain ⟨e, -, rfl⟩ := hpr
            rfl
          · simp
  | hint m es ih =>
      cases m with
      | none => simp [searchRec]
      | some m =>
          rw [searchRec]
          split
          · intro pr hpr
            rw [mem_searchEntries] at hpr
            obtain ⟨e, he, hpr⟩ := hpr
            exact ih e he pr hpr
          · simp

/-- C3 (generic form): every returned pair carries the exact `dist` value
of its point and obeys the radius bound, and the output is the stable
merge sort, by distance, of the filtered candidates — in particular sorted
ascending by distance. -/
lemma search_square_sound (dist : Point α → Point α → α) (cosR : α → α)
    (t : RTreeNode α) (c : Point α) (r : α) :
    (∀ pr ∈ search_square dist cosR t c r, pr.2 = dist c pr.1 ∧ pr.2 ≤ r) ∧
    List.Pairwise (fun a b : Point α × α => a.2 ≤ b.2)
      (search_square dist cosR t c r) ∧
    search_square dist cosR t c r =
      ((searchRec dist c (r / 111) (r / (111 * cosR c.lat)) t).filter
        (fun pr => decide (pr.2 ≤ r))).mergeSort (fun a b => decide (a.2 ≤ b.2)) := by
  refine ⟨?_, ?_, rfl⟩
  · intro pr hpr
    rw [search_square] at hpr
    rw [(List.mergeSort_perm _ _).mem_iff, List.mem_filter] at hpr
    obtain ⟨hmem, hle⟩ := hpr
    rw [decide_eq_true_eq] at hle
    exact ⟨searchRec_pairs dist c _ _ t pr hmem, hle⟩
  · rw [search_square]
    have hs := @List.sorted_mergeSort (Point α × α)
      (fun a b : Point α × α => decide (a.2 ≤ b.2))
      (fun a b c hab hbc => by
        rw [decide_eq_true_eq] at hab hbc ⊢
        exact hab.trans hbc)
      (fun a b => by
        rw [Bool.or_eq_true, decide_eq_true_eq, decide_eq_true_eq]
        exact le_total a.2 b.2)
      ((searchRec dist c (r / 111) (r / (111 * cosR c.lat)) t).filter
        (fun pr => decide (pr.2 ≤ r)))
    exact hs.imp (fun h => by rwa [decide_eq_true_eq] at h)

/-- C3: on the real instantiation, every pair returned by `search_square`
carries exactly the haversine distance (Earth radius 6371 km) from its
point to the center, that distance is at most `radius_km`, and the returned
sequence is the stable sort by distance of the collected candidates, hence
sorted ascending. -/
theorem search_results_sound_and_sorted (t : RTreeNode ℝ) (c : Point ℝ) (r : ℝ) :
    (∀ pr ∈ search_squareR t c r, pr.2 = distance_to c pr.1 ∧ pr.2 ≤ r) ∧
    List.Pairwise (fun a b : Point ℝ × ℝ => a.2 ≤ b.2) (search_squareR t c r) ∧
    search_squareR t c r =
      ((searchRec distance_to c (r / 111) (r / (111 * cosRad c.lat)) t).filter
        (fun pr => decide (pr.2 ≤ r))).mergeSort (fun a b => decide (a.2 ≤ b.2)) :=
  search_square_sound distance_to cosRad t c r

/-- Witness for `search_results_sound_and_sorted`: a one-point tree queried
at the point itself returns that point with distance `0 ≤ 1`. -/
theorem search_results_sound_and_sorted_witness :
    ((⟨0, 0, 0⟩, (0 : ℝ)) ∈ search_squareR
        (.leaf (some ⟨0, 0, 0, 0⟩) [(⟨0, 0, 0, 0⟩, ⟨0, 0, 0⟩)]) ⟨0, 0, 1⟩ 1) ∧
      ((0 : ℝ) = distance_to ⟨0, 0, 1⟩ ⟨0, 0, 0⟩ ∧ (0 : ℝ) ≤ 1) := by
  have hd : distance_to (⟨0, 0, 1⟩ : Point ℝ) ⟨0, 0, 0⟩ = 0 :=
    distance_to_same_coords _ _ rfl rfl
  have hmem : ((⟨0, 0, 0⟩ : Point ℝ), (0 : ℝ)) ∈ search_squareR
      (.leaf (some ⟨0, 0, 0, 0⟩) [(⟨0, 0, 0, 0⟩, ⟨0, 0, 0⟩)]) ⟨0, 0, 1⟩ 1 := by
    rw [search_squareR]
    norm_num [search_square, searchRec, MBR.intersects_square, cosRad, radians, hd]
  have hsound := (search_results_sound_and_sorted
    (.leaf (some ⟨0, 0, 0, 0⟩) [(⟨0, 0, 0, 0⟩, ⟨0, 0, 0⟩)]) ⟨0, 0, 1⟩ 1).1
    (⟨0, 0, 0⟩, (0 : ℝ)) hmem
  exact ⟨hmem, hsound⟩

/-- C7: at an internal node, the insertion descends into exactly the child
at index `chooseIdx` (first conjunct: `insertIntoChild` recurses into that
entry), and that entry minimizes the area enlargement needed to cover the
new point's degenerate MBR, with ties broken in favor of the smaller
original area (second conjunct, stated over the mapped enlargement and
area lists). -/
theorem insert_descends_into_min_enlargement_child (M : ℕ) (p : Point α)
    (es : List (MBR α × RTreeNode α)) (hne : es ≠ []) :
    (∃ hlt : chooseIdx es (MBR.from_point p) < es.length,
      insertIntoChild M (MBR.from_point p) p es (chooseIdx es (MBR.from_point p)) =
        some ((es.get ⟨chooseIdx es (MBR.from_point p), hlt⟩).1,
          insertNode M (MBR.from_point p) p
            (es.get ⟨chooseIdx es (MBR.from_point p), hlt⟩).2)) ∧
    ∀ k, k < es.length →
      ((es.map (enlargement (MBR.from_point p))).getD
          (chooseIdx es (MBR.from_point p)) 0 <
        (es.map (enlargement (MBR.from_point p))).getD k 0 ∨
      ((es.map (enlargement (MBR.from_point p))).getD
          (chooseIdx es (MBR.from_point p)) 0 =
        (es.map (enlargement (MBR.from_point p))).getD k 0 ∧
        (es.map (fun e => e.1.area)).getD (chooseIdx es (MBR.from_point p)) 0 ≤
          (es.map (fun e => e.1.area)).getD k 0)) := by
  obtain ⟨hlt, hmin⟩ := chooseIdx_spec es (MBR.from_point p) hne
  exact ⟨⟨hlt, insertIntoChild_get M (MBR.from_point p) p es _ hlt⟩, hmin⟩

/-- A concrete two-entry internal node used to witness the descent
characterization. -/
def twoEntries : List (MBR ℚ × RTreeNode ℚ) :=
  [(⟨0, 1, 0, 1⟩, .leaf none []), (⟨2, 3, 2, 3⟩, .leaf none [])]

/-- Witness for `insert_descends_into_min_enlargement_child` on a concrete
two-entry node. -/
theorem insert_descends_witness :
    twoEntries ≠ [] ∧
      chooseIdx twoEntries (MBR.from_point ⟨0, 0, 7⟩) < twoEntries.length := by
  have hne : twoEntries ≠ [] := by simp [twoEntries]
  obtain ⟨⟨hlt, -⟩, -⟩ :=
    insert_descends_into_min_enlargement_child 5 (⟨0, 0, 7⟩ : Point ℚ) twoEntries hne
  exact ⟨hne, hlt⟩

/-! ### Linear pick-seeds: characterization of the chosen axis and seeds -/

/-- Python's `min(...)` over a non-empty generator (`0` on an empty list,
which the source never passes). -/
def foldMin (l : List α) : α :=
  match l with
  | [] => 0
  | x :: xs => xs.foldl min x

/-- Python's `max(...)` over a non-empty generator. -/
def foldMax (l : List α) : α :=
  match l with
  | [] => 0
  | x :: xs => xs.foldl max x

lemma foldl_max_mem (xs : List α) (a : α) :
    xs.foldl max a = a ∨ xs.foldl max a ∈ xs := by
  induction xs generalizing a with
  | nil => exact Or.inl rfl
  | cons x xs ih =>
      rw [List.foldl_cons]
      rcases ih (max a x) with h | h
      · rcases max_choice a x with hm | hm
        · exact Or.inl (h.trans hm)
        · rw [h, hm]
          exact Or.inr (List.mem_cons_self x xs)
      · exact Or.inr (List.mem_cons_of_mem x h)

lemma foldl_min_mem (xs : List α) (a : α) :
    xs.foldl min a = a ∨ xs.foldl min a ∈ xs := by
  induction xs generalizing a with
  | nil => exact Or.inl rfl
  | cons x xs ih =>
      rw [List.foldl_cons]
      rcases ih (min a x) with h | h
      · rcases min_choice a x with hm | hm
        · exact Or.inl (h.trans hm)
        · rw [h, hm]
          exact Or.inr (List.mem_cons_self x xs)
      · exact Or.inr (List.mem_cons_of_mem x h)

lemma foldMax_mem (l : List α) (h : l ≠ []) : foldMax l ∈ l := by
  obtain ⟨x, xs, rfl⟩ := List.exists_cons_of_ne_nil h
  rw [foldMax]
  rcases foldl_max_mem xs x with heq | hmem
  · rw [heq]
    exact List.mem_cons_self x xs
  · exact List.mem_cons_of_mem x hmem

lemma foldMin_mem (l : List α) (h : l ≠ []) : foldMin l ∈ l := by
  obtain ⟨x, xs, rfl⟩ := List.exists_cons_of_ne_nil h
  rw [foldMin]
  rcases foldl_min_mem xs x with heq | hmem
  · rw [heq]
    exact List.mem_cons_self x xs
  · exact List.mem_cons_of_mem x hmem

/-- The overwriting index scan of `_linear_pick_seeds`: the final
accumulator is the initial one (when nothing matches) or the index of some
matching pair. -/
lemma scan_spec {β : Type} (q : β → Prop) [DecidablePred q]
    (l : List (ℕ × β)) (init : ℕ) :
    (l.foldl (fun a ie => if q ie.2 then ie.1 else a) init = init ∧
        ∀ ie ∈ l, ¬q ie.2) ∨
      ∃ ie ∈ l, l.foldl (fun a ie => if q ie.2 then ie.1 else a) init = ie.1 ∧
        q ie.2 := by
  induction l generalizing init with
  | nil => exact Or.inl ⟨rfl, by simp⟩
  | cons x xs ih =>
      rw [List.foldl_cons]
      by_cases hq : q x.2
      · rw [if_pos hq]
        rcases ih x.1 with ⟨heq, -⟩ | ⟨ie, hie, heq, hqie⟩
        · exact Or.inr ⟨x, List.mem_cons_self x xs, heq, hq⟩
        · exact Or.inr ⟨ie, List.mem_cons_of_mem x hie, heq, hqie⟩
      · rw [if_neg hq]
        rcases ih init with ⟨heq, hall⟩ | ⟨ie, hie, heq, hqie⟩
        · refine Or.inl ⟨heq, ?_⟩
          intro ie hie
          rcases List.mem_cons.1 hie with rfl | hie2
          · exact hq
          · exact hall ie hie2
        · exact Or.inr ⟨ie, List.mem_cons_of_mem x hie, heq, hqie⟩

/-- An index scan over the enumerated entries whose target value is
attained lands on an in-range index achieving the target. -/
lemma scan_achieves (g : MBR α × γ → α) (es : List (MBR α × γ)) (target : α)
    (init : ℕ) (hex : ∃ x ∈ es, g x = target) :
    (es.enum.foldl (fun a ie => if g ie.2 = target then ie.1 else a) init) <
        es.length ∧
      (es.map g).getD
        (es.enum.foldl (fun a ie => if g ie.2 = target then ie.1 else a) init)
        0 = target := by
  rcases scan_spec (fun x => g x = target) es.enum init with ⟨heq, hall⟩ |
    ⟨ie, hie, heq, hqie⟩
  · obtain ⟨x, hx, hgx⟩ := hex
    obtain ⟨k, hk, rfl⟩ := List.mem_iff_getElem.1 hx
    have hmem : ((k, es[k]) : ℕ × (MBR α × γ)) ∈ es.enum := by
      have hlen : k < es.enum.length := by simpa using hk
      have hgl : es.enum.get ⟨k, hlen⟩ = (k, es[k]) :=
        List.getElem_enum es k (by simpa using hk)
      have hin := List.get_mem es.enum k hlen
      rwa [hgl] at hin
    exact absurd hgx (hall _ hmem)
  · obtain ⟨hlt, hval⟩ := List.mem_enum hie
    refine ⟨by rw [heq]; exact hlt, ?_⟩
    rw [heq, List.getD_eq_getElem _ _ (by simpa using hlt)]
    rw [List.getElem_map]
    rw [← hval]
    exact hqie

/-- The overall width of an axis (`overall_max - overall_min`), with the
axis read through the `lo`/`hi` getters. -/
def axisWidth (lo hi : MBR α → α) (es : List (MBR α × γ)) : α :=
  foldMax (es.map (fun e => hi e.1)) - foldMin (es.map (fun e => lo e.1))

/-- The normalized separation of an axis:
`(max_of_min - min_of_max) / width`. -/
def axisSep (lo hi : MBR α → α) (es : List (MBR α × γ)) : α :=
  (foldMax (es.map (fun e => lo e.1)) - foldMin (es.map (fun e => hi e.1))) /
    axisWidth lo hi es

/-- The seed pair promised by the spec for an axis: the first seed achieves
`max_of_min` on that axis, and the second achieves `min_of_max` — unless
the two scans coincided, in which case the first seed achieves both and the
second is the distinct fallback index `(seed1 + 1) % len`. -/
def seedsOn (lo hi : MBR α → α) (es : List (MBR α × γ)) (s : ℕ × ℕ) : Prop :=
  (es.map (fun e => lo e.1)).getD s.1 0 = foldMax (es.map (fun e => lo e.1)) ∧
    ((es.map (fun e => hi e.1)).getD s.2 0 = foldMin (es.map (fun e => hi e.1)) ∨
      ((es.map (fun e => hi e.1)).getD s.1 0 = foldMin (es.map (fun e => hi e.1)) ∧
        s.2 = (s.1 + 1) % es.length))

/-- `axisPass` in closed form on a non-empty entry list. -/
lemma axisPass_eq (lo hi : MBR α → α) (es : List (MBR α × γ)) (hne : es ≠ [])
    (st : Option α × ℕ × ℕ) :
    axisPass lo hi es st =
      if 0 < axisWidth lo hi es then
        if (match st.1 with
            | none => true
            | some ms => decide (ms < axisSep lo hi es)) = true then
          (some (axisSep lo hi es),
            es.enum.foldl (fun a ie =>
              if lo ie.2.1 = foldMax (es.map (fun e => lo e.1)) then ie.1 else a)
              st.2.1,
            es.enum.foldl (fun a ie =>
              if hi ie.2.1 = foldMin (es.map (fun e => hi e.1)) then ie.1 else a)
              st.2.2)
        else st
      else st := by
  obtain ⟨e, rest, rfl⟩ := List.exists_cons_of_ne_nil hne
  rw [axisPass]
  simp only [axisWidth, axisSep, foldMin, foldMax, List.map_cons]

/-- Once the two axis passes have produced a final state whose two indices
achieve `max_of_min` and `min_of_max` on some axis, `pickSeeds` satisfies
the per-axis seed specification (the fallback clause included). -/
lemma seedsOn_of_final (lo hi : MBR α → α) (es : List (MBR α × γ))
    (ms : Option α) (s1 s2 : ℕ)
    (hst : axisPass (·.min_lon) (·.max_lon) es
        (axisPass (·.min_lat) (·.max_lat) es
          (none, 0, if 1 < es.length then 1 else 0)) = (ms, s1, s2))
    (hP : (es.map (fun e => lo e.1)).getD s1 0 = foldMax (es.map (fun e => lo e.1)))
    (hQ : (es.map (fun e => hi e.1)).getD s2 0 = foldMin (es.map (fun e => hi e.1))) :
    seedsOn lo hi es (pickSeeds es) := by
  rw [pickSeeds, hst]
  dsimp only
  split
  · rename_i hcond
    obtain ⟨heq, -⟩ := hcond
    subst heq
    exact ⟨hP, Or.inr ⟨hQ, rfl⟩⟩
  · exact ⟨hP, Or.inl hQ⟩

/-- C6 (amended to entry lists with at least two entries): the seeds are
two distinct in-range indices; if both axes are degenerate they are the
first two entries `(0, 1)`; otherwise the seeds come from a positive-width
axis of maximal normalized separation (latitude preferred on ties), the
first seed achieving that axis's `max_of_min` and the second its
`min_of_max`, with the documented distinct-index fallback when the two
scans coincide. -/
theorem pick_seeds_characterization (es : List (MBR α × γ)) (h2 : 2 ≤ es.length) :
    (pickSeeds es).1 < es.length ∧ (pickSeeds es).2 < es.length ∧
    (pickSeeds es).1 ≠ (pickSeeds es).2 ∧
    (axisWidth (fun x => x.min_lat) (fun x => x.max_lat) es = 0 ∧
      axisWidth (fun x => x.min_lon) (fun x => x.max_lon) es = 0 →
      pickSeeds es = (0, 1)) ∧
    (0 < axisWidth (fun x => x.min_lat) (fun x => x.max_lat) es ∨
      0 < axisWidth (fun x => x.min_lon) (fun x => x.max_lon) es →
      (0 < axisWidth (fun x => x.min_lat) (fun x => x.max_lat) es ∧
        (0 < axisWidth (fun x => x.min_lon) (fun x => x.max_lon) es →
          axisSep (fun x => x.min_lon) (fun x => x.max_lon) es ≤
            axisSep (fun x => x.min_lat) (fun x => x.max_lat) es) ∧
        seedsOn (fun x => x.min_lat) (fun x => x.max_lat) es (pickSeeds es)) ∨
      (0 < axisWidth (fun x => x.min_lon) (fun x => x.max_lon) es ∧
        (0 < axisWidth (fun x => x.min_lat) (fun x => x.max_lat) es →
          axisSep (fun x => x.min_lat) (fun x => x.max_lat) es <
            axisSep (fun x => x.min_lon) (fun x => x.max_lon) es) ∧
        seedsOn (fun x => x.min_lon) (fun x => x.max_lon) es (pickSeeds es))) := by
  have hne : es ≠ [] := by
    intro h
    rw [h] at h2
    simp at h2
  have hlen1 : 1 < es.length := by omega
  have hmapne : ∀ g : MBR α × γ → α, es.map g ≠ [] := by
    intro g h
    exact hne (List.map_eq_nil_iff.1 h)
  obtain ⟨hb1, hb2, hbne⟩ := pickSeeds_valid es h2
  have hexminlat : ∃ x ∈ es, x.1.min_lat =
      foldMax (es.map (fun x => x.1.min_lat)) := by
    obtain ⟨x, hx, heq⟩ := List.mem_map.1
      (foldMax_mem (es.map (fun x => x.1.min_lat)) (hmapne _))
    exact ⟨x, hx, heq⟩
  have hexmaxlat : ∃ x ∈ es, x.1.max_lat =
      foldMin (es.map (fun x => x.1.max_lat)) := by
    obtain ⟨x, hx, heq⟩ := List.mem_map.1
      (foldMin_mem (es.map (fun x => x.1.max_lat)) (hmapne _))
    exact ⟨x, hx, heq⟩
  have hexminlon : ∃ x ∈ es, x.1.min_lon =
      foldMax (es.map (fun x => x.1.min_lon)) := by
    obtain ⟨x, hx, heq⟩ := List.mem_map.1
      (foldMax_mem (es.map (fun x => x.1.min_lon)) (hmapne _))
    exact ⟨x, hx, heq⟩
  have hexmaxlon : ∃ x ∈ es, x.1.max_lon =
      foldMin (es.map (fun x => x.1.max_lon)) := by
    obtain ⟨x, hx, heq⟩ := List.mem_map.1
      (foldMin_mem (es.map (fun x => x.1.max_lon)) (hmapne _))
    exact ⟨x, hx, heq⟩
  refine ⟨hb1, hb2, hbne, ?_, ?_⟩
  · rintro ⟨hlat0, hlon0⟩
    have hn1 : ¬0 < axisWidth (fun x => x.min_lat) (fun x => x.max_lat) es := by
      rw [hlat0]
      exact lt_irrefl 0
    have hn2 : ¬0 < axisWidth (fun x => x.min_lon) (fun x => x.max_lon) es := by
      rw [hlon0]
      exact lt_irrefl 0
    rw [pickSeeds]
    rw [axisPass_eq (fun x => x.min_lat) (fun x => x.max_lat) es hne, if_neg hn1]
    rw [axisPass_eq (fun x => x.min_lon) (fun x => x.max_lon) es hne, if_neg hn2]
    dsimp only
    simp only [if_pos hlen1]
    have hn3 : ¬((0 : ℕ) = 1 ∧ 1 < es.length) := by simp
    rw [if_neg hn3]
  · intro hpos
    by_cases hlat : 0 < axisWidth (fun x => x.min_lat) (fun x => x.max_lat) es
    · have hst1 : axisPass (fun x => x.min_lat) (fun x => x.max_lat) es
          ((none : Option α), 0, if 1 < es.length then 1 else 0) =
          (some (axisSep (fun x => x.min_lat) (fun x => x.max_lat) es),
            es.enum.foldl (fun a ie =>
              if ie.2.1.min_lat = foldMax (es.map (fun x => x.1.min_lat))
              then ie.1 else a) 0,
            es.enum.foldl (fun a ie =>
              if ie.2.1.max_lat = foldMin (es.map (fun x => x.1.max_lat))
              then ie.1 else a) (if 1 < es.length then 1 else 0)) := by
        rw [axisPass_eq (fun x => x.min_lat) (fun x => x.max_lat) es hne,
          if_pos hlat]
        rfl
      obtain ⟨hA1lt, hA1⟩ := scan_achieves (fun x => x.1.min_lat) es
        (foldMax (es.map (fun x => x.1.min_lat))) 0 hexminlat
      obtain ⟨hA2lt, hA2⟩ := scan_achieves (fun x => x.1.max_lat) es
        (foldMin (es.map (fun x => x.1.max_lat)))
        (if 1 < es.length then 1 else 0) hexmaxlat
      by_cases hlon : 0 < axisWidth (fun x => x.min_lon) (fun x => x.max_lon) es
      · by_cases hcmp : axisSep (fun x => x.min_lat) (fun x => x.max_lat) es <
            axisSep (fun x => x.min_lon) (fun x => x.max_lon) es
        · refine Or.inr ⟨hlon, fun _ => hcmp, ?_⟩
          obtain ⟨hB1lt, hB1⟩ := scan_achieves (fun x => x.1.min_lon) es
            (foldMax (es.map (fun x => x.1.min_lon)))
            (es.enum.foldl (fun a ie =>
              if ie.2.1.min_lat = foldMax (es.map (fun x => x.1.min_lat))
              then ie.1 else a) 0) hexminlon
          obtain ⟨hB2lt, hB2⟩ := scan_achieves (fun x => x.1.max_lon) es
            (foldMin (es.map (fun x => x.1.max_lon)))
            (es.enum.foldl (fun a ie =>
              if ie.2.1.max_lat = foldMin (es.map (fun x => x.1.max_lat))
              then ie.1 else a) (if 1 < es.length then 1 else 0)) hexmaxlon
          refine seedsOn_of_final _ _ es
            (some (axisSep (fun x => x.min_lon) (fun x => x.max_lon) es))
            _ _ ?_ hB1 hB2
          rw [hst1,
            axisPass_eq (fun x => x.min_lon) (fun x => x.max_lon) es hne,
            if_pos hlon]
          exact if_pos (decide_eq_true hcmp)
        · refine Or.inl ⟨hlat, fun _ => le_of_not_lt hcmp, ?_⟩
          refine seedsOn_of_final _ _ es
            (some (axisSep (fun x => x.min_lat) (fun x => x.max_lat) es))
            _ _ ?_ hA1 hA2
          rw [hst1,
            axisPass_eq (fun x => x.min_lon) (fun x => x.max_lon) es hne,
            if_pos hlon]
          exact if_neg (by simp only [decide_eq_true_eq]; exact hcmp)
      · refine Or.inl ⟨hlat, fun h => absurd h hlon, ?_⟩
        refine seedsOn_of_final _ _ es
          (some (axisSep (fun x => x.min_lat) (fun x => x.max_lat) es))
          _ _ ?_ hA1 hA2
        rw [hst1,
          axisPass_eq (fun x => x.min_lon) (fun x => x.max_lon) es hne,
          if_neg hlon]
    · have hlon : 0 < axisWidth (fun x => x.min_lon) (fun x => x.max_lon) es := by
        rcases hpos with h | h
        · exact absurd h hlat
        · exact h
      refine Or.inr ⟨hlon, fun h => absurd h hlat, ?_⟩
      obtain ⟨hB1lt, hB1⟩ := scan_achieves (fun x => x.1.min_lon) es
        (foldMax (es.map (fun x => x.1.min_lon))) 0 hexminlon
      obtain ⟨hB2lt, hB2⟩ := scan_achieves (fun x => x.1.max_lon) es
        (foldMin (es.map (fun x => x.1.max_lon)))
        (if 1 < es.length then 1 else 0) hexmaxlon
      refine seedsOn_of_final _ _ es
        (some (axisSep (fun x => x.min_lon) (fun x => x.max_lon) es))
        _ _ ?_ hB1 hB2
      rw [axisPass_eq (fun x => x.min_lat) (fun x => x.max_lat) es hne,
        if_neg hlat,
        axisPass_eq (fun x => x.min_lon) (fun x => x.max_lon) es hne,
        if_pos hlon]
      rfl

/-- C6 counterexample: on the non-empty singleton entry list
`[(MBR 0 5 0 0, 0)]` the latitude axis has positive width, both index
scans land on entry `0`, and the distinctness fallback is skipped because
it is guarded by `len(entries) > 1` — so `pickSeeds` returns the
coinciding pair `(0, 0)`, contradicting the claim's promise that
coinciding indices fall back to a distinct second seed on every non-empty
list. -/
theorem pick_seeds_singleton_seeds_coincide :
    pickSeeds ([((⟨0, 5, 0, 0⟩ : MBR ℚ), (0 : ℕ))]) = (0, 0) ∧
      ([((⟨0, 5, 0, 0⟩ : MBR ℚ), (0 : ℕ))] : List (MBR ℚ × ℕ)) ≠ [] := by
  constructor
  · norm_num [pickSeeds, axisPass, List.enum, List.enumFrom]
  · simp

/-- Witness for the amended C6 theorem at a concrete two-entry list. -/
theorem pick_seeds_characterization_witness :
    2 ≤ ([((⟨0, 0, 0, 0⟩ : MBR ℚ), (0 : ℕ)), (⟨1, 1, 1, 1⟩, 1)]).length ∧
      (pickSeeds [((⟨0, 0, 0, 0⟩ : MBR ℚ), (0 : ℕ)), (⟨1, 1, 1, 1⟩, 1)]).1 ≠
        (pickSeeds [((⟨0, 0, 0, 0⟩ : MBR ℚ), (0 : ℕ)), (⟨1, 1, 1, 1⟩, 1)]).2 :=
  ⟨by decide,
    (pick_seeds_characterization
      [((⟨0, 0, 0, 0⟩ : MBR ℚ), (0 : ℕ)), (⟨1, 1, 1, 1⟩, 1)] (by decide)).2.2.1⟩

end RTreeSpec
